import Mathlib

/-!
Shallow embedding of the schedule-propagation engine of the Gantt repository:
`src/components/kibo-ui/gantt/utils/auto-schedule.ts` (calendar arithmetic,
rule registry, incremental auto-schedule, full recalculation, capacity check)
and the dependency arrow router of `src/unnamed/part_013`
(`calculateDependencyEndpoints`, `calculateDependencyPath`), with the data
model of `src/unnamed/part_011` (`types.ts`).

Modelling conventions:
* A JavaScript `Date` holding a whole-day instant is modelled as an `Int`
  day number (days since 1970-01-01, which was a Thursday).  `date-fns`
  `addDays` is integer addition, `differenceInDays` is subtraction and
  `getDay` is arithmetic modulo 7.  The recurring-holiday check needs the
  civil month and day of a date; these come from an exact Gregorian
  conversion (`civilFromDays`).  ISO `yyyy-MM-dd` strings (blackout bounds,
  explicit holiday dates) are modelled by the day numbers they denote:
  `format` is injective on whole days and lexicographic order of the strings
  agrees with the numeric order of the day numbers.
* Rule `config` objects are untagged unions in the source, read through
  unchecked casts.  They are modelled by one record with optional fields,
  mirroring property access on a JavaScript object (`none` = `undefined`).
  Fields that the source reads with `?.` or a `|| 0` default keep that
  behaviour; fields the TypeScript type marks as required (`SlackConfig.days`,
  `LagConfig.days`, `AlignmentConfig.startDay`, `ConstraintConfig.constraintType`,
  blackout bounds, capacity limits) are modelled with their defaults noted.
* The dependency `type` field is a `String` (the TypeScript union
  `"FS" | "SS" | "FF" | "SF"` seen from the data boundary); the `default:`
  branches that `throw new Error` in the source become `Except` errors of
  kind `SchedError.unknownDepType`.
* The two `while` loops of `addWorkingDays` / `subtractWorkingDays` genuinely
  diverge when every day is non-working (for example a weekday-holiday rule
  listing all seven weekdays), so they take an explicit fuel argument and
  running out of fuel is the distinct error `SchedError.outOfFuel`.  All
  other loops of the engine are bounded and are defined totally.
* JavaScript `Map` objects keyed by id are modelled as functions
  `String → Option _` (insertion from a list keeps the last binding per key,
  exactly as the `new Map(list)` constructor does); in-place mutation of a
  feature object held by the map becomes a functional update of the map.
-/

namespace Gantt

/-- The date-fns `addDays` on whole-day instants. -/
def addDays (d : Int) (n : Int) : Int := d + n

/-- The date-fns `differenceInDays laterDate earlierDate` on whole-day instants. -/
def differenceInDays (a b : Int) : Int := a - b

/-- The JavaScript `getDay`: weekday index, 0 = Sunday … 6 = Saturday.
Day 0 (1970-01-01) was a Thursday (= 4). -/
def getDay (d : Int) : Int := (d + 4).fmod 7

/-- Gregorian civil date (year, month 1-12, day 1-31) to day number.
Exact integer version of the standard civil-calendar conversion, with floor
division so that it is uniform in sign. -/
def daysFromCivil (y m d : Int) : Int :=
  let y' := if m ≤ 2 then y - 1 else y
  let era := y'.fdiv 400
  let yoe := y' - era * 400
  let mp := (m + 9).fmod 12
  let doy := (153 * mp + 2).fdiv 5 + d - 1
  let doe := yoe * 365 + yoe.fdiv 4 - yoe.fdiv 100 + doy
  era * 146097 + doe - 719468

/-- Day number to Gregorian civil date (year, month 1-12, day 1-31);
inverse of `daysFromCivil`. -/
def civilFromDays (z : Int) : Int × Int × Int :=
  let z' := z + 719468
  let era := z'.fdiv 146097
  let doe := z' - era * 146097
  let yoe := (doe - doe.fdiv 1460 + doe.fdiv 36524 - doe.fdiv 146096).fdiv 365
  let doy := doe - (365 * yoe + yoe.fdiv 4 - yoe.fdiv 100)
  let mp := (5 * doy + 2).fdiv 153
  let dd := doy - (153 * mp + 2).fdiv 5 + 1
  let mm := if mp < 10 then mp + 3 else mp - 9
  (yoe + era * 400 + (if mm ≤ 2 then 1 else 0), mm, dd)

/-- The JavaScript `getMonth() + 1` (month 1-12) of a day number. -/
def getMonth1 (d : Int) : Int := (civilFromDays d).2.1

/-- The JavaScript `getDate()` (day of month 1-31) of a day number. -/
def getDate (d : Int) : Int := (civilFromDays d).2.2

/-- A resource reference (`owner` / `group` of a feature): id plus optional
display name, as read by the capacity check. -/
structure Resource where
  id : String
  name : Option String
  deriving DecidableEq, Repr

/-- Feature of `types.ts` (`GanttFeature`), extended with the optional
`owner` / `group` references that `FeatureWithOwner` adds for the capacity
check.  The `status` and `lane` fields are never read by the engine and are
omitted. -/
structure GanttFeature where
  id : String
  name : String
  startAt : Int
  endAt : Int
  owner : Option Resource := none
  group : Option Resource := none
  deriving DecidableEq, Repr

/-- Dependency of `types.ts` (`GanttDependency`).  The `type` field is the
string union `"FS" | "SS" | "FF" | "SF"` seen at the data boundary; the
optional display `color` is never read by the engine and is omitted. -/
structure GanttDependency where
  id : String
  sourceId : String
  targetId : String
  type : String
  deriving DecidableEq, Repr

/-- Untagged rule-config record (`SchedulingRuleConfig` of `types.ts`):
one record with every optional field of the union, mirroring property reads
on a JavaScript object where an absent field is `undefined` (= `none`).
Explicit holiday `dates` and blackout bounds are day numbers standing for
their ISO `yyyy-MM-dd` strings. -/
structure RuleConfig where
  weekdays : Option (List Int) := none
  dates : Option (List Int) := none
  month : Option Int := none
  day : Option Int := none
  recurring : Option Bool := none
  days : Option Int := none
  dependencyTypes : Option (List String) := none
  betweenFeatures : Option (List (String × String)) := none
  constraintType : Option String := none
  featureIds : Option (List String) := none
  startDate : Option Int := none
  endDate : Option Int := none
  maxConcurrent : Option Int := none
  groupBy : Option String := none
  startDay : Option Int := none
  minDays : Option Int := none
  maxDays : Option Int := none
  sourceId : Option String := none
  targetId : Option String := none
  deriving DecidableEq, Repr

/-- Scheduling rule of `types.ts` (`SchedulingRule`): tag string
(`"holiday" | "slack" | "constraint" | "duration" | "blackout" | "capacity"
| "alignment" | "lag"`), enabled flag and config. -/
structure SchedulingRule where
  id : String
  type : String
  name : String
  config : RuleConfig
  enabled : Bool
  deriving DecidableEq, Repr

/-- Update record returned by the engine (`FeatureUpdate`). -/
structure FeatureUpdate where
  id : String
  startAt : Int
  endAt : Int
  deriving DecidableEq, Repr

/-- Capacity warning (`CapacityWarning`). -/
structure CapacityWarning where
  resourceId : String
  resourceName : String
  resourceType : String
  maxConcurrent : Int
  actualConcurrent : Int
  overlappingFeatures : List String
  deriving DecidableEq, Repr

/-- `isHoliday` of `auto-schedule.ts` (lines 52-82): true iff some enabled
holiday rule matches the date by weekday set, explicit date list, or
recurring (month, day) pair. -/
def isHoliday (date : Int) (rules : List SchedulingRule) : Bool :=
  (rules.filter (fun r => r.type = "holiday" && r.enabled)).any fun rule =>
    let config := rule.config
    ((config.weekdays.getD []).contains (getDay date)) ||
    (config.dates.isSome && (config.dates.getD []).contains date) ||
    (config.recurring.getD false &&
      (match config.month, config.day with
       | some m, some dd =>
           m ≠ 0 && dd ≠ 0 && getMonth1 date = m && getDate date = dd
       | _, _ => false))

/-- `isBlackoutPeriod` of `auto-schedule.ts` (lines 262-275): true iff the
date falls inside some enabled blackout range (inclusive).  String
comparison of ISO dates in the source is the numeric comparison of the day
numbers here.  A blackout config whose bounds are absent compares a string
against `undefined`, which is false in JavaScript; absent bounds therefore
never match. -/
def isBlackoutPeriod (date : Int) (rules : List SchedulingRule) : Bool :=
  (rules.filter (fun r => r.type = "blackout" && r.enabled)).any fun rule =>
    match rule.config.startDate, rule.config.endDate with
    | some s, some e => s ≤ date && date ≤ e
    | _, _ => false

/-- `isNonWorkingDay` of `auto-schedule.ts` (lines 281-283). -/
def isNonWorkingDay (date : Int) (rules : List SchedulingRule) : Bool :=
  isHoliday date rules || isBlackoutPeriod date rules

/-- The `hasTimeOffRules` test repeated inside the calendar functions of
`auto-schedule.ts`: some enabled holiday or blackout rule exists. -/
def hasTimeOffRules (rules : List SchedulingRule) : Bool :=
  rules.any fun r => (r.type = "holiday" || r.type = "blackout") && r.enabled

/-- `getTotalSlackDays` of `auto-schedule.ts` (lines 192-224): sum of `days`
over the enabled slack rules whose optional dependency-type scope and
optional feature-pair scope admit this edge.  The truthiness guards of the
source (`depType && …`, `sourceId && targetId && …`) test for the empty
string here because the call sites always pass strings. -/
def getTotalSlackDays (rules : List SchedulingRule) (depType sourceId targetId : String) : Int :=
  (rules.filter (fun r => r.type = "slack" && r.enabled)).foldl
    (fun total rule =>
      let config := rule.config
      if depType ≠ "" && (config.dependencyTypes.getD []) ≠ [] &&
          !(config.dependencyTypes.getD []).contains depType then
        total
      else if sourceId ≠ "" && targetId ≠ "" && (config.betweenFeatures.getD []) ≠ [] &&
          !(config.betweenFeatures.getD []).any
            (fun pair => pair.1 = sourceId && pair.2 = targetId) then
        total
      else
        total + config.days.getD 0)
    0

/-- `getFeatureConstraint` of `auto-schedule.ts` (lines 229-252): the config
of the first enabled constraint rule whose feature-id list is empty/absent or
contains the feature. -/
def getFeatureConstraint (featureId : String) (rules : List SchedulingRule) :
    Option RuleConfig :=
  match rules with
  | [] => none
  | rule :: rest =>
      if rule.type ≠ "constraint" ∨ rule.enabled = false then
        getFeatureConstraint featureId rest
      else if (rule.config.featureIds.getD []) = [] then
        some rule.config
      else if featureId ∈ rule.config.featureIds.getD [] then
        some rule.config
      else
        getFeatureConstraint featureId rest

/-- `getLagDays` of `auto-schedule.ts` (lines 289-308): signed days from the
first enabled lag rule matching the exact (sourceId, targetId) pair, else 0.
`LagConfig.days` is required by the TypeScript type; an absent field is
modelled as 0. -/
def getLagDays (sourceId targetId : String) (rules : List SchedulingRule) : Int :=
  match rules with
  | [] => 0
  | rule :: rest =>
      if rule.type = "lag" && rule.enabled &&
          rule.config.sourceId = some sourceId && rule.config.targetId = some targetId then
        rule.config.days.getD 0
      else
        getLagDays sourceId targetId rest

/-- `getAlignmentDay` of `auto-schedule.ts` (lines 314-337): target weekday
of the first enabled alignment rule applying to the feature, else `none`.
`AlignmentConfig.startDay` is required by the TypeScript type; an absent
field is modelled as 0. -/
def getAlignmentDay (featureId : String) (rules : List SchedulingRule) : Option Int :=
  match rules with
  | [] => none
  | rule :: rest =>
      if rule.type ≠ "alignment" ∨ rule.enabled = false then
        getAlignmentDay featureId rest
      else if (rule.config.featureIds.getD []) = [] then
        some (rule.config.startDay.getD 0)
      else if featureId ∈ rule.config.featureIds.getD [] then
        some (rule.config.startDay.getD 0)
      else
        getAlignmentDay featureId rest

/-- `alignToWeekday` of `auto-schedule.ts` (lines 343-352): advance a date to
the next occurrence of the target weekday; unchanged when already on it. -/
def alignToWeekday (date : Int) (targetWeekday : Int) : Int :=
  let currentDay := getDay date
  if currentDay = targetWeekday then date
  else
    let daysUntilTarget := (targetWeekday - currentDay + 7).fmod 7
    addDays date (if daysUntilTarget = 0 then 7 else daysUntilTarget)

/-- Duration-validation result of `validateDuration` (the inline record type
of `auto-schedule.ts` lines 358-361). -/
structure DurationCheck where
  valid : Bool
  minDays : Option Int := none
  maxDays : Option Int := none
  message : Option String := none
  deriving DecidableEq, Repr

/-- Loop of `validateDuration` over the filtered enabled duration rules:
skip rules scoped to other features, report the first violated bound. -/
def validateDurationGo (featureId : String) (actualDays : Int) :
    List SchedulingRule → DurationCheck
  | [] => { valid := true }
  | rule :: rest =>
      let config := rule.config
      if (config.featureIds.getD []) ≠ [] &&
          !(config.featureIds.getD []).contains featureId then
        validateDurationGo featureId actualDays rest
      else if config.minDays.isSome && actualDays < config.minDays.getD 0 then
        { valid := false, minDays := config.minDays,
          message := some ("Duration " ++ toString actualDays ++
            " days is less than minimum " ++ toString (config.minDays.getD 0) ++ " days") }
      else if config.maxDays.isSome && actualDays > config.maxDays.getD 0 then
        { valid := false, maxDays := config.maxDays,
          message := some ("Duration " ++ toString actualDays ++
            " days exceeds maximum " ++ toString (config.maxDays.getD 0) ++ " days") }
      else
        validateDurationGo featureId actualDays rest

/-- `validateDuration` of `auto-schedule.ts` (lines 358-398): first violated
enabled duration rule applying to the feature wins; valid otherwise. -/
def validateDuration (feature : GanttFeature) (rules : List SchedulingRule) :
    DurationCheck :=
  let actualDays := differenceInDays feature.endAt feature.startAt
  validateDurationGo feature.id actualDays
    (rules.filter (fun r => r.type = "duration" && r.enabled))

/-- Error kind of the engine: the `throw new Error("Unknown dependency type")`
branches of the source, plus fuel exhaustion standing for the divergence of
the working-day loops when no working day exists in the search direction. -/
inductive SchedError where
  | unknownDepType (t : String)
  | outOfFuel
  deriving DecidableEq, Repr

deriving instance DecidableEq for Except

/-- Result monad of the engine operations that contain a throwing branch or
an unbounded loop. -/
abbrev SchedM (a : Type) := Except SchedError a

/-- First `while` loop of `addWorkingDays` (lines 106-108): skip forward over
non-working days at the start date.  Each iteration consumes one fuel. -/
def skipNonWorkingForward (fuel : Nat) (d : Int) (rules : List SchedulingRule) :
    SchedM Int :=
  if isNonWorkingDay d rules then
    match fuel with
    | 0 => .error .outOfFuel
    | fuel + 1 => skipNonWorkingForward fuel (addDays d 1) rules
  else
    .ok d

/-- Second `while` loop of `addWorkingDays` (lines 111-116): step forward one
day at a time, counting working days, until `days` working days were added.
A non-positive `days` makes the loop body run zero times. -/
def addWorkingDaysGo (fuel : Nat) (current : Int) (daysAdded days : Int)
    (rules : List SchedulingRule) : SchedM Int :=
  if daysAdded < days then
    match fuel with
    | 0 => .error .outOfFuel
    | fuel + 1 =>
        let next := addDays current 1
        addWorkingDaysGo fuel next
          (if isNonWorkingDay next rules then daysAdded else daysAdded + 1) days rules
  else
    .ok current

/-- `addWorkingDays` of `auto-schedule.ts` (lines 88-119): plain `addDays`
when no time-off rule is enabled, otherwise skip leading non-working days and
add `days` working days. -/
def addWorkingDays (fuel : Nat) (startDate : Int) (days : Int)
    (rules : List SchedulingRule) : SchedM Int :=
  if !hasTimeOffRules rules then
    .ok (addDays startDate days)
  else do
    let d ← skipNonWorkingForward fuel startDate rules
    addWorkingDaysGo fuel d 0 days rules

/-- First `while` loop of `subtractWorkingDays` (lines 143-145): skip
backward over non-working days at the start date. -/
def skipNonWorkingBackward (fuel : Nat) (d : Int) (rules : List SchedulingRule) :
    SchedM Int :=
  if isNonWorkingDay d rules then
    match fuel with
    | 0 => .error .outOfFuel
    | fuel + 1 => skipNonWorkingBackward fuel (addDays d (-1)) rules
  else
    .ok d

/-- Second `while` loop of `subtractWorkingDays` (lines 148-153). -/
def subtractWorkingDaysGo (fuel : Nat) (current : Int) (daysSubtracted days : Int)
    (rules : List SchedulingRule) : SchedM Int :=
  if daysSubtracted < days then
    match fuel with
    | 0 => .error .outOfFuel
    | fuel + 1 =>
        let next := addDays current (-1)
        subtractWorkingDaysGo fuel next
          (if isNonWorkingDay next rules then daysSubtracted else daysSubtracted + 1)
          days rules
  else
    .ok current

/-- `subtractWorkingDays` of `auto-schedule.ts` (lines 125-156): plain
negative `addDays` when no time-off rule is enabled, otherwise skip backward
and subtract `days` working days. -/
def subtractWorkingDays (fuel : Nat) (startDate : Int) (days : Int)
    (rules : List SchedulingRule) : SchedM Int :=
  if !hasTimeOffRules rules then
    .ok (addDays startDate (-days))
  else do
    let d ← skipNonWorkingBackward fuel startDate rules
    subtractWorkingDaysGo fuel d 0 days rules

/-- The `while (currentDate < endDate)` loop of `getWorkingDaysBetween`
(lines 175-185): count working days in the half-open range.  The loop runs
exactly `(endDate - startDate).toNat` times, which the wrapper passes as the
structural counter `n`. -/
def countWorkingDaysGo (n : Nat) (current : Int) (rules : List SchedulingRule) : Int :=
  match n with
  | 0 => 0
  | n + 1 =>
      (if isNonWorkingDay current rules then 0 else 1) +
        countWorkingDaysGo n (addDays current 1) rules

/-- Working days in `[startDate, endDate)` (empty for a non-positive span,
exactly as the `while (currentDate < endDate)` guard behaves). -/
def countWorkingDays (startDate endDate : Int) (rules : List SchedulingRule) : Int :=
  countWorkingDaysGo (endDate - startDate).toNat startDate rules

/-- `getWorkingDaysBetween` of `auto-schedule.ts` (lines 161-186): calendar
difference when no time-off rule is enabled, else count of working days in
`[startDate, endDate)`. -/
def getWorkingDaysBetween (startDate endDate : Int) (rules : List SchedulingRule) : Int :=
  if !hasTimeOffRules rules then
    differenceInDays endDate startDate
  else
    countWorkingDays startDate endDate rules

/-- Sweep event of `calculateMaxConcurrent`: `+1` at a start, `-1` at an end. -/
structure SweepEvent where
  date : Int
  delta : Int
  deriving DecidableEq, Repr

/-- Stable insertion keeping events ordered by date: a new event goes after
every event with an earlier-or-equal date.  Folding this over the event list
produces exactly the stable JavaScript `sort((a, b) => a.date - b.date)`. -/
def insertEventSorted (e : SweepEvent) : List SweepEvent → List SweepEvent
  | [] => [e]
  | x :: xs => if e.date < x.date then e :: x :: xs else x :: insertEventSorted e xs

/-- Stable sort of sweep events by date (insertion order preserved on ties),
the behaviour of the JavaScript stable `Array.sort` in the source. -/
def sortEvents (l : List SweepEvent) : List SweepEvent :=
  l.foldl (fun acc e => insertEventSorted e acc) []

/-- The running-maximum sweep of `calculateMaxConcurrent` (lines 436-441). -/
def sweepMax : List SweepEvent → Int → Int → Int
  | [], _, maxConcurrent => maxConcurrent
  | e :: rest, concurrent, maxConcurrent =>
      let c := concurrent + e.delta
      sweepMax rest c (max maxConcurrent c)

/-- `calculateMaxConcurrent` of `auto-schedule.ts` (lines 428-444): peak
concurrency of a feature set by the standard event sweep. -/
def calculateMaxConcurrent (features : List GanttFeature) : Int :=
  let events := features.foldr
    (fun f acc => { date := f.startAt, delta := 1 } ::
      { date := f.endAt, delta := -1 } :: acc) ([] : List SweepEvent)
  sweepMax (sortEvents events) 0 0

/-- Display name of a resource as built by `groupFeaturesByResource`
(line 417): `resource.name || resource.id`, where an empty name string is
falsy in JavaScript. -/
def resourceDisplayName (r : Resource) : String :=
  match r.name with
  | some n => if n = "" then r.id else n
  | none => r.id

/-- Value of one entry of the resource map of `groupFeaturesByResource`. -/
structure ResourceGroup where
  name : String
  features : List GanttFeature
  deriving DecidableEq, Repr

/-- One step of `groupFeaturesByResource`: append the feature to the entry of
its resource (keeping the name recorded at first occurrence) or create a new
entry at the end, exactly as `Map.get / Map.set` do in the source. -/
def addFeatureToGroups (rid rname : String) (f : GanttFeature) :
    List (String × ResourceGroup) → List (String × ResourceGroup)
  | [] => [(rid, { name := rname, features := [f] })]
  | (k, g) :: rest =>
      if k = rid then
        (k, { g with features := g.features ++ [f] }) :: rest
      else
        (k, g) :: addFeatureToGroups rid rname f rest

/-- `groupFeaturesByResource` of `auto-schedule.ts` (lines 401-425): group
features by their owner or group resource, in first-occurrence order
(JavaScript `Map` iteration order is insertion order).  A feature without the
requested resource is skipped. -/
def groupFeaturesByResource (features : List GanttFeature) (groupBy : String) :
    List (String × ResourceGroup) :=
  features.foldl
    (fun groups f =>
      match (if groupBy = "owner" then f.owner else f.group) with
      | none => groups
      | some r => addFeatureToGroups r.id (resourceDisplayName r) f groups)
    []

/-- `checkResourceCapacity` of `auto-schedule.ts` (lines 447-468): warning
when the sweep peak strictly exceeds the allowed maximum.  An absent
`maxConcurrent` config compares as `peak > undefined`, which is false in
JavaScript, so it never warns. -/
def checkResourceCapacity (resourceId resourceName : String)
    (resourceFeatures : List GanttFeature) (maxAllowed : Option Int)
    (resourceType : String) : Option CapacityWarning :=
  let maxC := calculateMaxConcurrent resourceFeatures
  match maxAllowed with
  | none => none
  | some m =>
      if maxC > m then
        some { resourceId := resourceId, resourceName := resourceName,
               resourceType := resourceType, maxConcurrent := m,
               actualConcurrent := maxC,
               overlappingFeatures := resourceFeatures.map (fun f => f.name) }
      else
        none

/-- `checkCapacity` of `auto-schedule.ts` (lines 474-508): for every enabled
capacity rule, group the features by the configured resource kind and collect
a warning per over-capacity group.  An absent `groupBy` is not `"owner"`, so
the source's ternary picks the `group` resource; it is modelled by the
default `"group"`. -/
def checkCapacity (features : List GanttFeature) (rules : List SchedulingRule) :
    List CapacityWarning :=
  ((rules.filter (fun r => r.type = "capacity" && r.enabled)).map
    (fun rule =>
      let groupBy := rule.config.groupBy.getD "group"
      (groupFeaturesByResource features groupBy).filterMap
        (fun rg =>
          checkResourceCapacity rg.1 rg.2.name rg.2.features
            rule.config.maxConcurrent groupBy))).flatten

/-- Features map of the scheduler, `new Map(features.map(f => [f.id, {...f}]))`:
lookup by id, later list entries winning over earlier ones exactly as the
`Map` constructor behaves on duplicate keys. -/
def buildFeaturesMap (features : List GanttFeature) : String → Option GanttFeature :=
  features.foldl (fun m f => fun k => if k = f.id then some f else m k) (fun _ => none)

/-- In-place mutation of the feature object stored under a key, as a
functional map update. -/
def mapSet (m : String → Option GanttFeature) (k : String) (f : GanttFeature) :
    String → Option GanttFeature :=
  fun k' => if k' = k then some f else m k'

/-- `buildDependencyGraph` of `auto-schedule.ts` (lines 511-521) read at a
key: the map built by pushing each dependency onto its source's bucket holds,
per source id, exactly the dependencies with that source in list order. -/
def buildDependencyGraph (dependencies : List GanttDependency) (sourceId : String) :
    List GanttDependency :=
  dependencies.filter (fun d => d.sourceId = sourceId)

/-- `buildReverseDependencyGraph` of `auto-schedule.ts` (lines 639-649) read
at a key: per target id, the dependencies with that target in list order. -/
def buildReverseDependencyGraph (dependencies : List GanttDependency) (targetId : String) :
    List GanttDependency :=
  dependencies.filter (fun d => d.targetId = targetId)

/-- `calculateTargetDates` of `auto-schedule.ts` (lines 524-555): proposed
target dates per dependency type, preserving the target's calendar-day
duration; the `default: throw` branch is the error case. -/
def calculateTargetDates (source target : GanttFeature) (depType : String) :
    SchedM (Int × Int) :=
  let duration := differenceInDays target.endAt target.startAt
  if depType = "FS" then .ok (source.endAt, addDays source.endAt duration)
  else if depType = "SS" then .ok (source.startAt, addDays source.startAt duration)
  else if depType = "FF" then .ok (addDays source.endAt (-duration), source.endAt)
  else if depType = "SF" then .ok (addDays source.startAt (-duration), source.startAt)
  else .error (.unknownDepType depType)

/-- Number of ids of `allIds` not yet visited; the decreasing measure of the
graph traversals (the source terminates them with a visited `Set`). -/
def unvisitedCount (allIds visited : List String) : Nat :=
  (allIds.filter (fun y => y ∉ visited)).length

theorem filterNotConsLe (l v : List String) (x : String) :
    (l.filter (fun y => y ∉ x :: v)).length ≤ (l.filter (fun y => y ∉ v)).length := by
  apply List.Sublist.length_le
  apply List.monotone_filter_right
  intro a ha
  simp only [decide_eq_true_eq, List.mem_cons] at *
  tauto

theorem filterNotConsLt (l v : List String) (x : String)
    (hx : x ∈ l) (hnx : x ∉ v) :
    (l.filter (fun y => y ∉ x :: v)).length < (l.filter (fun y => y ∉ v)).length := by
  induction l with
  | nil => cases hx
  | cons a rest ih =>
      rw [List.filter_cons, List.filter_cons]
      by_cases hav : a ∈ v
      · have hx' : x ∈ rest := by
          rcases List.mem_cons.mp hx with h | h
          · exact absurd (h ▸ hav) hnx
          · exact h
        have c1 : (decide (a ∉ x :: v)) = false := by simp [hav]
        have c2 : (decide (a ∉ v)) = false := by simp [hav]
        rw [c1, c2]
        simpa using ih hx'
      · by_cases hax : a = x
        · have c1 : (decide (a ∉ x :: v)) = false := by simp [hax]
          have c2 : (decide (a ∉ v)) = true := by simpa using hav
          rw [c1, c2]
          simp only [if_false, if_true, List.length_cons]
          exact Nat.lt_succ_of_le (filterNotConsLe rest v x)
        · have hx' : x ∈ rest := by
            rcases List.mem_cons.mp hx with h | h
            · exact absurd h.symm hax
            · exact h
          have c1 : (decide (a ∉ x :: v)) = true := by
            simp only [decide_eq_true_eq, List.mem_cons]
            tauto
          have c2 : (decide (a ∉ v)) = true := by simpa using hav
          rw [c1, c2]
          simp only [if_true, List.length_cons]
          exact Nat.succ_lt_succ (ih hx')

theorem unvisitedCount_cons_lt (allIds visited : List String) (x : String)
    (hx : x ∈ allIds) (hnx : x ∉ visited) :
    unvisitedCount allIds (x :: visited) < unvisitedCount allIds visited :=
  filterNotConsLt allIds visited x hx hnx

/-- Map from feature id to the (current state of the) feature object. -/
abbrev FMap := String → Option GanttFeature

/-- `processDependency` of `auto-schedule.ts` (lines 569-585): propose target
dates from the source; when they differ from the target's current dates,
mutate the target (`updateFeatureDates`), record the update and push the
target id onto the BFS queue (here: the `pushed` suffix). -/
def processDependency (dep : GanttDependency) (source target : GanttFeature)
    (fmap : FMap) (updates : List FeatureUpdate) (pushed : List String) :
    SchedM (FMap × List FeatureUpdate × List String) := do
  let calculated ← calculateTargetDates source target dep.type
  if target.startAt ≠ calculated.1 ∨ target.endAt ≠ calculated.2 then
    .ok (mapSet fmap dep.targetId
           { target with startAt := calculated.1, endAt := calculated.2 },
         updates ++ [{ id := target.id, startAt := calculated.1, endAt := calculated.2 }],
         pushed ++ [dep.targetId])
  else
    .ok (fmap, updates, pushed)

/-- The `for (const dep of outgoingDeps)` loop of `autoSchedule`
(lines 627-632).  The source captures the object reference
`featuresMap.get(currentId)` once; since a self-edge mutates that very
object, the reference is re-read from the map at every iteration here, which
is the same thing (the map's key set never changes). -/
def processOutgoing (currentId : String) (outgoing : List GanttDependency)
    (fmap : FMap) (updates : List FeatureUpdate) (pushed : List String) :
    SchedM (FMap × List FeatureUpdate × List String) :=
  match outgoing with
  | [] => .ok (fmap, updates, pushed)
  | dep :: rest =>
      match fmap currentId, fmap dep.targetId with
      | some source, some target => do
          let (fmap', updates', pushed') ←
            processDependency dep source target fmap updates pushed
          processOutgoing currentId rest fmap' updates' pushed'
      | _, _ => processOutgoing currentId rest fmap updates pushed

theorem processDependency_pushed_le (dep : GanttDependency)
    (source target : GanttFeature) (fmap : FMap) (updates : List FeatureUpdate)
    (pushed : List String) (fmap' : FMap) (updates' : List FeatureUpdate)
    (pushed' : List String)
    (h : processDependency dep source target fmap updates pushed =
      .ok (fmap', updates', pushed')) :
    pushed'.length ≤ pushed.length + 1 := by
  unfold processDependency at h
  cases hc : calculateTargetDates source target dep.type with
  | error e => rw [hc] at h; exact absurd h (by simp [Bind.bind, Except.bind])
  | ok c =>
      rw [hc] at h
      simp only [Bind.bind, Except.bind] at h
      by_cases hne : target.startAt ≠ c.1 ∨ target.endAt ≠ c.2
      · rw [if_pos hne] at h
        cases h
        simp
      · rw [if_neg hne] at h
        cases h
        omega

theorem processOutgoing_pushed_le (currentId : String)
    (outgoing : List GanttDependency) (fmap : FMap)
    (updates : List FeatureUpdate) (pushed : List String) (fmap' : FMap)
    (updates' : List FeatureUpdate) (pushed' : List String)
    (h : processOutgoing currentId outgoing fmap updates pushed =
      .ok (fmap', updates', pushed')) :
    pushed'.length ≤ pushed.length + outgoing.length := by
  induction outgoing generalizing fmap updates pushed with
  | nil =>
      unfold processOutgoing at h
      cases h
      simp
  | cons dep rest ih =>
      unfold processOutgoing at h
      cases hs : fmap currentId with
      | none =>
          rw [hs] at h
          have := ih _ _ _ h
          simp only [List.length_cons]
          omega
      | some source =>
          rw [hs] at h
          cases ht : fmap dep.targetId with
          | none =>
              rw [ht] at h
              have := ih _ _ _ h
              simp only [List.length_cons]
              omega
          | some target =>
              rw [ht] at h
              simp only [Bind.bind, Except.bind] at h
              cases hd : processDependency dep source target fmap updates pushed with
              | error e => rw [hd] at h; cases h
              | ok trip =>
                  rw [hd] at h
                  obtain ⟨f1, u1, p1⟩ := trip
                  dsimp only at h
                  have hle := processDependency_pushed_le _ _ _ _ _ _ _ _ _ hd
                  have := ih _ _ _ h
                  simp only [List.length_cons]
                  omega

theorem measureLt (u' u D d r p : Nat) (hu : u' < u) (hdD : d ≤ D) (hpd : p ≤ d) :
    u' * (D + 1) + (r + p) < u * (D + 1) + (r + 1) := by
  have h1 : (u' + 1) * (D + 1) ≤ u * (D + 1) := Nat.mul_le_mul_right _ hu
  have h2 : (u' + 1) * (D + 1) = u' * (D + 1) + D + 1 := by ring
  omega

/-- The BFS `while (queue.length > 0)` loop of `autoSchedule`
(lines 617-633).  `allIds` is the moved id plus all feature ids; every id
that can reach the queue is among them, so the `currentId ∉ allIds` skip is
dead code that exists to bound the loop (the source terminates through the
visited set alone).  A falsy (empty-string) id is skipped by the
`!currentId` check of the source.  The loop is driven by a structural fuel
counter; `autoSchedule` passes a fuel that dominates the decreasing measure
`unvisitedCount * (deps + 1) + queue length`, so the `outOfFuel` branch is
dead code (this is proved where totality is needed). -/
def autoScheduleLoop (dependencies : List GanttDependency) (allIds : List String) :
    Nat → List String → List String → FMap → List FeatureUpdate →
    SchedM (FMap × List FeatureUpdate)
  | _, [], _, fmap, updates => .ok (fmap, updates)
  | 0, _ :: _, _, _, _ => .error .outOfFuel
  | fuel + 1, currentId :: rest, visited, fmap, updates =>
      if currentId = "" ∨ currentId ∈ visited ∨ currentId ∉ allIds then
        autoScheduleLoop dependencies allIds fuel rest visited fmap updates
      else
        match processOutgoing currentId
            (buildDependencyGraph dependencies currentId) fmap updates [] with
        | .error e => .error e
        | .ok (fmap', updates', pushed) =>
            autoScheduleLoop dependencies allIds fuel (rest ++ pushed)
              (currentId :: visited) fmap' updates' 

/-- `autoSchedule` of `auto-schedule.ts` (lines 597-636): apply the new dates
to the moved feature (when it exists), then BFS downstream through the
forward dependency graph. -/
def autoSchedule (movedFeatureId : String) (newStartAt newEndAt : Int)
    (features : List GanttFeature) (dependencies : List GanttDependency) :
    SchedM (List FeatureUpdate) := do
  let fmap0 := buildFeaturesMap features
  let start : FMap × List FeatureUpdate :=
    match fmap0 movedFeatureId with
    | some movedFeature =>
        (mapSet fmap0 movedFeatureId
           { movedFeature with startAt := newStartAt, endAt := newEndAt },
         [{ id := movedFeature.id, startAt := newStartAt, endAt := newEndAt }])
    | none => (fmap0, [])
  let allIds := movedFeatureId :: features.map (fun f => f.id)
  let (_, updates) ← autoScheduleLoop dependencies allIds
    (allIds.length * (dependencies.length + 1) + 2) [movedFeatureId] []
    start.1 start.2
  .ok updates

/-- The recursive `visit` of `topologicalSort` (lines 665-677), as an
explicit DFS worklist: popping an unvisited id appends it to the result and
prepends its dependents, which reproduces the source's preorder exactly.
`allIds` contains every feature id and every dependency target, hence every
id that can be pending; the `id ∉ allIds` skip is dead code bounding the
loop.  The fuel passed by `topologicalSort` dominates the decreasing measure
`unvisitedCount * (deps + 1) + pending length`, so the fuel-exhaustion
branch (which returns the result accumulated so far) is dead code. -/
def visitAux (dependencies : List GanttDependency) (allIds : List String) :
    Nat → List String → List String → List String → List String
  | _, [], _, result => result
  | 0, _ :: _, _, result => result
  | fuel + 1, id :: rest, visited, result =>
      if id ∈ visited ∨ id ∉ allIds then
        visitAux dependencies allIds fuel rest visited result
      else
        visitAux dependencies allIds fuel
          (((buildDependencyGraph dependencies id).map (fun d => d.targetId)) ++ rest)
          (id :: visited) (result ++ [id])

/-- `topologicalSort` of `auto-schedule.ts` (lines 652-692): DFS preorder
from the roots (features with no incoming dependency), then a second pass
over all features catches cycles and disconnected nodes.  Both passes share
one visited set, so they are one worklist run on `roots ++ feature ids`. -/
def topologicalSort (features : List GanttFeature)
    (dependencies : List GanttDependency) : List String :=
  let hasIncoming := dependencies.map (fun d => d.targetId)
  let roots := (features.filter (fun f => f.id ∉ hasIncoming)).map (fun f => f.id)
  let allIds := features.map (fun f => f.id) ++ dependencies.map (fun d => d.targetId)
  let pending := roots ++ features.map (fun f => f.id)
  visitAux dependencies allIds
    (allIds.length * (dependencies.length + 1) + pending.length + 1) pending [] []

/-- `getConstraintStartWithRules` of `auto-schedule.ts` (lines 695-732):
candidate start for one incoming dependency, slack- and calendar-aware. -/
def getConstraintStartWithRules (fuel : Nat) (source : GanttFeature)
    (targetWorkingDays : Int) (depType : String) (rules : List SchedulingRule)
    (sourceId targetId : String) : SchedM Int :=
  let slackDays := getTotalSlackDays rules depType sourceId targetId
  if depType = "FS" then
    addWorkingDays fuel source.endAt slackDays rules
  else if depType = "SS" then
    addWorkingDays fuel source.startAt slackDays rules
  else if depType = "FF" then do
    let targetEnd ← addWorkingDays fuel source.endAt slackDays rules
    subtractWorkingDays fuel targetEnd targetWorkingDays rules
  else if depType = "SF" then do
    let targetEnd ← addWorkingDays fuel source.startAt slackDays rules
    subtractWorkingDays fuel targetEnd targetWorkingDays rules
  else
    .error (.unknownDepType depType)

/-- `getConstraintStart` of `auto-schedule.ts` (lines 735-752): legacy
candidate start for one incoming dependency, plain calendar arithmetic. -/
def getConstraintStart (source : GanttFeature) (targetDuration : Int)
    (depType : String) : SchedM Int :=
  if depType = "FS" then .ok source.endAt
  else if depType = "SS" then .ok source.startAt
  else if depType = "FF" then .ok (addDays source.endAt (-targetDuration))
  else if depType = "SF" then .ok (addDays source.startAt (-targetDuration))
  else .error (.unknownDepType depType)

/-- The `for (const dep of incomingDeps)` loop of
`findConstraintStartWithRules` (lines 768-793): per edge, candidate start
plus lag, tracking the maximum (`null`-or-greater update, first edge wins a
tie).  Edges whose source id misses the map are skipped. -/
def findConstraintStartWithRulesGo (fuel : Nat) (workingDays : Int)
    (featuresMap : FMap) (rules : List SchedulingRule) :
    List GanttDependency → Option Int → SchedM (Option Int)
  | [], acc => .ok acc
  | dep :: rest, acc =>
      match featuresMap dep.sourceId with
      | none => findConstraintStartWithRulesGo fuel workingDays featuresMap rules rest acc
      | some source => do
          let base ← getConstraintStartWithRules fuel source workingDays dep.type
            rules dep.sourceId dep.targetId
          let lagDays := getLagDays dep.sourceId dep.targetId rules
          let minStart ← if lagDays ≠ 0 then addWorkingDays fuel base lagDays rules
            else .ok base
          let acc' := match acc with
            | none => some minStart
            | some c => if minStart > c then some minStart else some c
          findConstraintStartWithRulesGo fuel workingDays featuresMap rules rest acc'

/-- `findConstraintStartWithRules` of `auto-schedule.ts` (lines 755-796). -/
def findConstraintStartWithRules (fuel : Nat) (feature : GanttFeature)
    (incomingDeps : List GanttDependency) (featuresMap : FMap)
    (rules : List SchedulingRule) : SchedM (Option Int) :=
  findConstraintStartWithRulesGo fuel
    (getWorkingDaysBetween feature.startAt feature.endAt rules)
    featuresMap rules incomingDeps none

/-- The loop of legacy `findConstraintStart` (lines 807-818). -/
def findConstraintStartGo (duration : Int) (featuresMap : FMap) :
    List GanttDependency → Option Int → SchedM (Option Int)
  | [], acc => .ok acc
  | dep :: rest, acc =>
      match featuresMap dep.sourceId with
      | none => findConstraintStartGo duration featuresMap rest acc
      | some source => do
          let minStart ← getConstraintStart source duration dep.type
          let acc' := match acc with
            | none => some minStart
            | some c => if minStart > c then some minStart else some c
          findConstraintStartGo duration featuresMap rest acc'

/-- `findConstraintStart` of `auto-schedule.ts` (lines 799-821). -/
def findConstraintStart (feature : GanttFeature)
    (incomingDeps : List GanttDependency) (featuresMap : FMap) :
    SchedM (Option Int) :=
  findConstraintStartGo (differenceInDays feature.endAt feature.startAt)
    featuresMap incomingDeps none

/-- `applyConstraintWithRules` of `auto-schedule.ts` (lines 824-852): align
the candidate start, recompute the end from the preserved working-day
duration, and mutate-and-report only when the start actually changes. -/
def applyConstraintWithRules (fuel : Nat) (feature : GanttFeature)
    (constraintStart : Int) (featureId : String) (rules : List SchedulingRule) :
    SchedM (Option (GanttFeature × FeatureUpdate)) := do
  let workingDays := getWorkingDaysBetween feature.startAt feature.endAt rules
  let alignedStart :=
    match getAlignmentDay featureId rules with
    | some alignmentDay => alignToWeekday constraintStart alignmentDay
    | none => constraintStart
  let newEndAt ← addWorkingDays fuel alignedStart workingDays rules
  if feature.startAt ≠ alignedStart then
    .ok (some ({ feature with startAt := alignedStart, endAt := newEndAt },
               { id := featureId, startAt := alignedStart, endAt := newEndAt }))
  else
    .ok none

/-- Legacy `applyConstraint` of `auto-schedule.ts` (lines 855-870). -/
def applyConstraint (feature : GanttFeature) (constraintStart : Int)
    (featureId : String) : Option (GanttFeature × FeatureUpdate) :=
  let duration := differenceInDays feature.endAt feature.startAt
  let newEndAt := addDays constraintStart duration
  if feature.startAt ≠ constraintStart then
    some ({ feature with startAt := constraintStart, endAt := newEndAt },
          { id := featureId, startAt := constraintStart, endAt := newEndAt })
  else
    none

/-- Body of `processFeatureWithRules` after the constraint-skip check
(lines 903-919). -/
def processFeatureWithRulesCore (fuel : Nat) (featureId : String)
    (feature : GanttFeature) (featuresMap : FMap)
    (incomingDeps : List GanttDependency) (rules : List SchedulingRule) :
    SchedM (FMap × Option FeatureUpdate) := do
  if incomingDeps.length = 0 then
    .ok (featuresMap, none)
  else
    match ← findConstraintStartWithRules fuel feature incomingDeps featuresMap rules with
    | none => .ok (featuresMap, none)
    | some constraintStart =>
        match ← applyConstraintWithRules fuel feature constraintStart featureId rules with
        | some (feature', update) =>
            .ok (mapSet featuresMap featureId feature', some update)
        | none => .ok (featuresMap, none)

/-- `processFeatureWithRules` of `auto-schedule.ts` (lines 873-920): skip
missing features and features under any enabled constraint rule (the three
`constraintType` branches all return null), else recalculate from the
incoming edges. -/
def processFeatureWithRules (fuel : Nat) (featureId : String)
    (featuresMap : FMap) (reverseGraph : String → List GanttDependency)
    (rules : List SchedulingRule) : SchedM (FMap × Option FeatureUpdate) :=
  match featuresMap featureId with
  | none => .ok (featuresMap, none)
  | some feature =>
      match getFeatureConstraint featureId rules with
      | some featureConstraint =>
          if featureConstraint.constraintType = some "fixed_both" ∨
              featureConstraint.constraintType = some "fixed_start" ∨
              featureConstraint.constraintType = some "fixed_end" then
            .ok (featuresMap, none)
          else
            processFeatureWithRulesCore fuel featureId feature featuresMap
              (reverseGraph featureId) rules
      | none =>
          processFeatureWithRulesCore fuel featureId feature featuresMap
            (reverseGraph featureId) rules

/-- `processFeatureLegacy` of `auto-schedule.ts` (lines 923-949). -/
def processFeatureLegacy (featureId : String) (featuresMap : FMap)
    (reverseGraph : String → List GanttDependency) :
    SchedM (FMap × Option FeatureUpdate) :=
  match featuresMap featureId with
  | none => .ok (featuresMap, none)
  | some feature =>
      let incomingDeps := reverseGraph featureId
      if incomingDeps.length = 0 then
        .ok (featuresMap, none)
      else do
        match ← findConstraintStart feature incomingDeps featuresMap with
        | none => .ok (featuresMap, none)
        | some constraintStart =>
            match applyConstraint feature constraintStart featureId with
            | some (feature', update) =>
                .ok (mapSet featuresMap featureId feature', some update)
            | none => .ok (featuresMap, none)

/-- The `for (const featureId of order)` loop of `recalculateSchedule`
(lines 977-990), threading the features map and collecting updates. -/
def recalcLoop (useRules : Bool) (fuel : Nat)
    (reverseGraph : String → List GanttDependency)
    (enabledRules : List SchedulingRule) :
    List String → FMap → List FeatureUpdate →
    SchedM (FMap × List FeatureUpdate)
  | [], featuresMap, updates => .ok (featuresMap, updates)
  | featureId :: rest, featuresMap, updates => do
      let (featuresMap', update) ←
        if useRules then
          processFeatureWithRules fuel featureId featuresMap reverseGraph enabledRules
        else
          processFeatureLegacy featureId featuresMap reverseGraph
      recalcLoop useRules fuel reverseGraph enabledRules rest featuresMap'
        (match update with
         | some u => updates ++ [u]
         | none => updates)

/-- `recalculateSchedule` of `auto-schedule.ts` (lines 965-993): topological
walk over all features, with the rule-aware path when at least one enabled
rule exists and the legacy path otherwise. -/
def recalculateSchedule (fuel : Nat) (features : List GanttFeature)
    (dependencies : List GanttDependency) (rules : List SchedulingRule) :
    SchedM (List FeatureUpdate) := do
  let featuresMap := buildFeaturesMap features
  let reverseGraph := buildReverseDependencyGraph dependencies
  let order := topologicalSort features dependencies
  let enabledRules := rules.filter (fun r => r.enabled)
  let useRules := enabledRules.length ≠ 0
  let (_, updates) ← recalcLoop useRules fuel reverseGraph enabledRules order
    featuresMap []
  .ok updates

/-- Last update of the list matching an id (the last write to a feature when
the host applies the update list in order). -/
def lastUpdateFor (updates : List FeatureUpdate) (id : String) :
    Option FeatureUpdate :=
  updates.foldl (fun acc u => if u.id = id then some u else acc) none

/-- Host-side application of an update list to the feature list: each
feature takes the dates of the last update bearing its id. -/
def applyUpdates (features : List GanttFeature) (updates : List FeatureUpdate) :
    List GanttFeature :=
  features.map fun f =>
    match lastUpdateFor updates f.id with
    | some u => { f with startAt := u.startAt, endAt := u.endAt }
    | none => f

/-- Pixel point of the arrow router (`ArrowEndpoint` of `types.ts`).  Pixel
coordinates are JavaScript numbers combined by `+`, `-`, `/ 2`, `min`, `max`
only; they are modelled as rationals, on which this arithmetic is exact. -/
structure ArrowEndpoint where
  x : Rat
  y : Rat
  deriving DecidableEq, Repr

/-- Margin-inflated rectangle (`Obstacle` of `types.ts`). -/
structure Obstacle where
  id : String
  left : Rat
  top : Rat
  right : Rat
  bottom : Rat
  deriving DecidableEq, Repr

/-- Pixel rectangle of a feature bar (`FeaturePosition` of `types.ts`). -/
structure FeaturePosition where
  id : String
  left : Rat
  width : Rat
  top : Rat
  height : Rat
  deriving DecidableEq, Repr

/-- `DependencyEndpoints` of `types.ts`. -/
structure DependencyEndpoints where
  source : ArrowEndpoint
  target : ArrowEndpoint
  targetFromRight : Bool
  deriving DecidableEq, Repr

/-- `horizontalLineIntersectsObstacle` of `src/unnamed/part_013`
(lines 11-25): edge-exclusive intersection of a horizontal segment with a
rectangle. -/
def horizontalLineIntersectsObstacle (y x1 x2 : Rat) (obstacle : Obstacle) : Bool :=
  let minX := min x1 x2
  let maxX := max x1 x2
  if y ≤ obstacle.top ∨ y ≥ obstacle.bottom then false
  else !(maxX ≤ obstacle.left ∨ minX ≥ obstacle.right)

/-- `verticalLineIntersectsObstacle` of `src/unnamed/part_013` (lines 27-41). -/
def verticalLineIntersectsObstacle (x y1 y2 : Rat) (obstacle : Obstacle) : Bool :=
  let minY := min y1 y2
  let maxY := max y1 y2
  if x ≤ obstacle.left ∨ x ≥ obstacle.right then false
  else !(maxY ≤ obstacle.top ∨ minY ≥ obstacle.bottom)

/-- The `for (let i = 0; i < maxIterations; i++)` loop of
`findSafeHorizontalY` (lines 53-63): `i` is the current index, the second
counter is the remaining iterations (20 at the start). -/
def findSafeHorizontalYGo (baseY : Rat) (direction : String) (minX maxX : Rat)
    (obstacles : List Obstacle) : Nat → Nat → Rat
  | _, 0 => baseY
  | i, remaining + 1 =>
      let testY := if direction = "above" then baseY - i * 20 else baseY + i * 20
      if obstacles.any (fun obs => horizontalLineIntersectsObstacle testY minX maxX obs) then
        findSafeHorizontalYGo baseY direction minX maxX obstacles (i + 1) remaining
      else
        testY

/-- `findSafeHorizontalY` of `src/unnamed/part_013` (lines 43-66): step by
20 px away from `baseY` up to 20 times; first collision-free height wins,
else `baseY`. -/
def findSafeHorizontalY (baseY : Rat) (direction : String) (minX maxX : Rat)
    (obstacles : List Obstacle) : Rat :=
  findSafeHorizontalYGo baseY direction minX maxX obstacles 0 20

/-- The loop of `findSafeVerticalX` (lines 78-88). -/
def findSafeVerticalXGo (baseX : Rat) (direction : String) (minY maxY : Rat)
    (obstacles : List Obstacle) : Nat → Nat → Rat
  | _, 0 => baseX
  | i, remaining + 1 =>
      let testX := if direction = "left" then baseX - i * 20 else baseX + i * 20
      if obstacles.any (fun obs => verticalLineIntersectsObstacle testX minY maxY obs) then
        findSafeVerticalXGo baseX direction minY maxY obstacles (i + 1) remaining
      else
        testX

/-- `findSafeVerticalX` of `src/unnamed/part_013` (lines 68-91). -/
def findSafeVerticalX (baseX : Rat) (direction : String) (minY maxY : Rat)
    (obstacles : List Obstacle) : Rat :=
  findSafeVerticalXGo baseX direction minY maxY obstacles 0 20

/-- `calculateDependencyEndpoints` of `src/unnamed/part_013` (lines 93-140):
vertical bar centers; horizontal edges per dependency type (the `default:`
switch branch falls back to the FS geometry with `targetFromRight` left
false). -/
def calculateDependencyEndpoints (dependency : GanttDependency)
    (featurePositions : String → Option FeaturePosition) :
    Option DependencyEndpoints :=
  match featurePositions dependency.sourceId, featurePositions dependency.targetId with
  | some sourcePos, some targetPos =>
      let sourceVerticalCenter := sourcePos.top + sourcePos.height / 2
      let targetVerticalCenter := targetPos.top + targetPos.height / 2
      let e : Rat × Rat × Bool :=
        if dependency.type = "FS" then
          (sourcePos.left + sourcePos.width, targetPos.left, false)
        else if dependency.type = "SS" then
          (sourcePos.left, targetPos.left, false)
        else if dependency.type = "FF" then
          (sourcePos.left + sourcePos.width, targetPos.left + targetPos.width, true)
        else if dependency.type = "SF" then
          (sourcePos.left, targetPos.left + targetPos.width, true)
        else
          (sourcePos.left + sourcePos.width, targetPos.left, false)
      some { source := { x := e.1, y := sourceVerticalCenter },
             target := { x := e.2.1, y := targetVerticalCenter },
             targetFromRight := e.2.2 }
  | _, _ => none

/-- `calculateDependencyPath` of `src/unnamed/part_013` (lines 142-240) as
the sequence of polyline points of the produced path: the `M` point followed
by the `L` points, in order.  Every string branch of the source is the
rendering of such a list (see `renderPath`). -/
def calculateDependencyPath (source target : ArrowEndpoint)
    (targetFromRight : Bool) (obstacles : List Obstacle) : List ArrowEndpoint :=
  let padding : Rat := 12
  let dy := target.y - source.y
  if |dy| < 5 then
    [source, target]
  else if targetFromRight then
    let dx := target.x - source.x
    if dx > 0 then
      let exitX := findSafeVerticalX (target.x + padding) "right"
        (min source.y target.y) (max source.y target.y) obstacles
      [source, { x := exitX, y := source.y }, { x := exitX, y := target.y }, target]
    else
      let exitX := source.x + padding
      let entryX := target.x + padding
      let baseY := if dy > 0 then max source.y target.y else min source.y target.y
      let direction := if dy > 0 then "below" else "above"
      let midY := findSafeHorizontalY
        (if direction = "below" then baseY + 20 else baseY - 20) direction
        (min exitX entryX) (max exitX entryX) obstacles
      [source, { x := exitX, y := source.y }, { x := exitX, y := midY },
       { x := entryX, y := midY }, { x := entryX, y := target.y }, target]
  else
    let dx := target.x - source.x
    if dx > padding * 2 then
      let turnX := findSafeVerticalX (source.x + padding) "right"
        (min source.y target.y) (max source.y target.y) obstacles
      [source, { x := turnX, y := source.y }, { x := turnX, y := target.y }, target]
    else
      let exitX := source.x + padding
      let entryX := target.x - padding
      let baseY := if dy > 0 then max source.y target.y else min source.y target.y
      let direction := if dy > 0 then "below" else "above"
      let midY := findSafeHorizontalY
        (if direction = "below" then baseY + 20 else baseY - 20) direction
        (min exitX entryX) (max exitX entryX) obstacles
      [source, { x := exitX, y := source.y }, { x := exitX, y := midY },
       { x := entryX, y := midY }, { x := entryX, y := target.y }, target]

/-- Rendering of one point, `${p.x} ${p.y}` (number formatting abstracted by
the rational `toString`). -/
def renderPoint (p : ArrowEndpoint) : String :=
  toString p.x ++ " " ++ toString p.y

/-- Rendering of a point list as the SVG path string of the source:
`M p₀ L p₁ L p₂ …`. -/
def renderPath (points : List ArrowEndpoint) : String :=
  match points with
  | [] => ""
  | p :: rest => rest.foldl (fun acc q => acc ++ " L " ++ renderPoint q) ("M " ++ renderPoint p)

/-- The composition the renderer uses per dependency: endpoints (when both
positions exist) then path string. -/
def computeDependencyPathString (dependency : GanttDependency)
    (featurePositions : String → Option FeaturePosition)
    (obstacles : List Obstacle) : Option String :=
  match calculateDependencyEndpoints dependency featurePositions with
  | none => none
  | some ep =>
      some (renderPath (calculateDependencyPath ep.source ep.target ep.targetFromRight obstacles))

/-! ### Concrete fixtures shared by the claim theorems.
Concrete dates are written through `daysFromCivil`, so `daysFromCivil 2025 1 3`
is Friday 2025-01-03. -/

/-- Feature literal: id, name = id, start, end. -/
def mkFeature (i : String) (s e : Int) : GanttFeature :=
  { id := i, name := i, startAt := s, endAt := e }

/-- Dependency literal: id, source, target, type. -/
def mkDep (i s t ty : String) : GanttDependency :=
  { id := i, sourceId := s, targetId := t, type := ty }

/-- Enabled weekday-holiday rule skipping Sundays (0) and Saturdays (6). -/
def weekendRule : SchedulingRule :=
  { id := "rWknd", type := "holiday", name := "weekends",
    config := { weekdays := some [0, 6] }, enabled := true }

/-- Claim C1: For features A=[Jan 1, Jan 5], B=[Jan 10, Jan 12],
C=[Jan 20, Jan 25] with FS dependencies A→B and B→C and an empty rule list,
`recalculateSchedule` returns exactly two updates, in order: first B with
start Jan 5 and end Jan 7, then C with start Jan 7 and end Jan 12
(dates written as days of January 2025). -/
theorem claim_C1 :
    recalculateSchedule 0
      [mkFeature "A" (daysFromCivil 2025 1 1) (daysFromCivil 2025 1 5),
       mkFeature "B" (daysFromCivil 2025 1 10) (daysFromCivil 2025 1 12),
       mkFeature "C" (daysFromCivil 2025 1 20) (daysFromCivil 2025 1 25)]
      [mkDep "dAB" "A" "B" "FS", mkDep "dBC" "B" "C" "FS"] [] =
    .ok [{ id := "B", startAt := daysFromCivil 2025 1 5, endAt := daysFromCivil 2025 1 7 },
         { id := "C", startAt := daysFromCivil 2025 1 7, endAt := daysFromCivil 2025 1 12 }] := by
  decide

/-- Diamond fixture refuting the universally quantified FS invariant: the
DFS preorder of `topologicalSort` visits D before its predecessor C
(order A, B, D, C), so C is moved after D was finalised. -/
def diamondFeatures : List GanttFeature :=
  [mkFeature "A" 0 10, mkFeature "B" 0 1, mkFeature "C" 0 5, mkFeature "D" 0 1]

/-- Diamond dependencies A→B, A→C, B→D, C→D, all FS. -/
def diamondDeps : List GanttDependency :=
  [mkDep "dAB" "A" "B" "FS", mkDep "dAC" "A" "C" "FS",
   mkDep "dBD" "B" "D" "FS", mkDep "dCD" "C" "D" "FS"]

/-- Claim C2, counterexample: on the diamond input with no rules, the FS
dependency C→D ends with D.start = 11 < 15 = C.end after all updates are
applied, so `t.start ≥ s.end` fails for an FS edge.  (D is visited by the
preorder DFS before its predecessor C.) -/
theorem claim_C2_counterexample :
    recalculateSchedule 0 diamondFeatures diamondDeps [] =
      .ok [{ id := "B", startAt := 10, endAt := 11 },
           { id := "D", startAt := 11, endAt := 12 },
           { id := "C", startAt := 10, endAt := 15 }] ∧
    applyUpdates diamondFeatures
      [{ id := "B", startAt := 10, endAt := 11 },
       { id := "D", startAt := 11, endAt := 12 },
       { id := "C", startAt := 10, endAt := 15 }] =
      [mkFeature "A" 0 10, mkFeature "B" 10 11, mkFeature "C" 10 15,
       mkFeature "D" 11 12] ∧
    ¬((11 : Int) ≥ 15) := by
  decide

/-- Two-feature cycle fixture refuting idempotence: s→t and t→s (FS). -/
def cycleFeatures : List GanttFeature := [mkFeature "s" 0 5, mkFeature "t" 0 2]

/-- The two cyclic dependencies. -/
def cycleDeps : List GanttDependency :=
  [mkDep "dst" "s" "t" "FS", mkDep "dts" "t" "s" "FS"]

/-- Claim C4, counterexample: on the two-feature FS cycle the first
recalculation returns s=[2,7], t=[7,9]; applying those updates and
recalculating again returns two further updates, not the empty list. -/
theorem claim_C4_counterexample :
    recalculateSchedule 0 cycleFeatures cycleDeps [] =
      .ok [{ id := "s", startAt := 2, endAt := 7 },
           { id := "t", startAt := 7, endAt := 9 }] ∧
    recalculateSchedule 0
      (applyUpdates cycleFeatures
        [{ id := "s", startAt := 2, endAt := 7 },
         { id := "t", startAt := 7, endAt := 9 }]) cycleDeps [] =
      .ok [{ id := "s", startAt := 9, endAt := 14 },
           { id := "t", startAt := 14, endAt := 16 }] ∧
    ([{ id := "s", startAt := (9 : Int), endAt := (14 : Int) },
      { id := "t", startAt := 14, endAt := 16 }] : List FeatureUpdate) ≠ [] := by
  decide

/-- Claim C3, counterexample: with the weekend rule enabled,
A=[Fri Jan 3, Fri Jan 3] and B spanning two working days, recalculation
does NOT yield B=[Mon Jan 6, Wed Jan 8]: Friday Jan 3 is itself a working
day, so `addWorkingDays(A.end, 0)` does not advance, B starts Fri Jan 3 and
ends two working days later on Tue Jan 7. -/
theorem claim_C3_counterexample :
    recalculateSchedule 1000
      [mkFeature "A" (daysFromCivil 2025 1 3) (daysFromCivil 2025 1 3),
       mkFeature "B" (daysFromCivil 2025 1 6) (daysFromCivil 2025 1 8)]
      [mkDep "dAB" "A" "B" "FS"] [weekendRule] ≠
    .ok [{ id := "B", startAt := daysFromCivil 2025 1 6,
           endAt := daysFromCivil 2025 1 8 }] := by
  decide

/-- Claim C3, amended: with a single enabled holiday rule skipping weekdays
0 and 6, feature A on [Fri Jan 3, Fri Jan 3] and an FS dependency A→B where
B spans 2 working days (B stored as [Mon Jan 6, Wed Jan 8]),
`recalculateSchedule` yields exactly one update: B with start Fri Jan 3
(= A.end, already a working day) and end Tue Jan 7 (two working days
later). -/
theorem claim_C3_amended :
    recalculateSchedule 1000
      [mkFeature "A" (daysFromCivil 2025 1 3) (daysFromCivil 2025 1 3),
       mkFeature "B" (daysFromCivil 2025 1 6) (daysFromCivil 2025 1 8)]
      [mkDep "dAB" "A" "B" "FS"] [weekendRule] =
    .ok [{ id := "B", startAt := daysFromCivil 2025 1 3,
           endAt := daysFromCivil 2025 1 7 }] ∧
    getWorkingDaysBetween (daysFromCivil 2025 1 6) (daysFromCivil 2025 1 8)
      [weekendRule] = 2 := by
  decide

/-- Fixture for C10: M is moved; edges M→Z, M→P, P→Z, Z→W (all FS). -/
def c10Features : List GanttFeature :=
  [mkFeature "M" 0 5, mkFeature "Z" 0 3, mkFeature "P" 0 2, mkFeature "W" 0 4]

/-- C10 dependency list. -/
def c10Deps : List GanttDependency :=
  [mkDep "dMZ" "M" "Z" "FS", mkDep "dMP" "M" "P" "FS",
   mkDep "dPZ" "P" "Z" "FS", mkDep "dZW" "Z" "W" "FS"]

/-- The update list `autoSchedule` produces on the C10 fixture. -/
def c10Updates : List FeatureUpdate :=
  [{ id := "M", startAt := 0, endAt := 10 },
   { id := "Z", startAt := 10, endAt := 13 },
   { id := "P", startAt := 10, endAt := 12 },
   { id := "W", startAt := 13, endAt := 17 },
   { id := "Z", startAt := 12, endAt := 15 }]

/-- Claim C10: moving M to [0,10] with edges M→Z, M→P, P→Z, Z→W makes
`autoSchedule` update Z twice — Z is dequeued (and marked visited) after the
first update, then overwritten by its later-processed predecessor P — so the
returned list holds two updates for Z, and W (Z's successor) was computed
from Z's pre-overwrite end 13, not from Z's final end 15. -/
theorem claim_C10 :
    autoSchedule "M" 0 10 c10Features c10Deps = .ok c10Updates ∧
    (c10Updates.filter (fun u => u.id = "Z")).length = 2 ∧
    lastUpdateFor c10Updates "Z" =
      some { id := "Z", startAt := 12, endAt := 15 } ∧
    lastUpdateFor c10Updates "W" =
      some { id := "W", startAt := 13, endAt := 17 } ∧
    (13 : Int) ≠ 15 := by
  decide

/-- Lag rule of −1 working day (a lead) between A and B, enabled. -/
def leadLagRule : SchedulingRule :=
  { id := "rLag", type := "lag", name := "lead",
    config := { days := some (-1), sourceId := some "A", targetId := some "B" },
    enabled := true }

/-- Features map for the C6 fixture: A = [Mon Jan 6, Wed Jan 8],
B = [Thu Jan 9, Fri Jan 10]. -/
def c6Map : FMap :=
  buildFeaturesMap
    [mkFeature "A" (daysFromCivil 2025 1 6) (daysFromCivil 2025 1 8),
     mkFeature "B" (daysFromCivil 2025 1 9) (daysFromCivil 2025 1 10)]

/-- The C6 target feature B. -/
def c6Target : GanttFeature :=
  mkFeature "B" (daysFromCivil 2025 1 9) (daysFromCivil 2025 1 10)

/-- Claim C6, failing evaluation: with the weekend holiday rule enabled and
an enabled lag rule of −1 days for (A, B), the candidate start computed for
the FS edge A→B equals Wed Jan 8 both with and without the lag rule — the
negative lag is silently dropped (`addWorkingDays` never steps backwards once
a time-off rule is enabled) — whereas one working day earlier than Wed Jan 8
is Tue Jan 7 (`subtractWorkingDays` of 1). -/
theorem claim_C6_code_bug :
    findConstraintStartWithRules 1000 c6Target [mkDep "dAB" "A" "B" "FS"]
      c6Map [weekendRule] = .ok (some (daysFromCivil 2025 1 8)) ∧
    findConstraintStartWithRules 1000 c6Target [mkDep "dAB" "A" "B" "FS"]
      c6Map [weekendRule, leadLagRule] = .ok (some (daysFromCivil 2025 1 8)) ∧
    getLagDays "A" "B" [weekendRule, leadLagRule] = -1 ∧
    subtractWorkingDays 1000 (daysFromCivil 2025 1 8) 1 [weekendRule, leadLagRule] =
      .ok (daysFromCivil 2025 1 7) ∧
    daysFromCivil 2025 1 8 ≠ daysFromCivil 2025 1 7 := by
  decide

theorem checkResourceCapacity_eq_some (rid rname : String)
    (rfeats : List GanttFeature) (maxA : Option Int) (rtype : String)
    (w : CapacityWarning) :
    checkResourceCapacity rid rname rfeats maxA rtype = some w ↔
      ∃ m, maxA = some m ∧ calculateMaxConcurrent rfeats > m ∧
        w = { resourceId := rid, resourceName := rname, resourceType := rtype,
              maxConcurrent := m,
              actualConcurrent := calculateMaxConcurrent rfeats,
              overlappingFeatures := rfeats.map (fun f => f.name) } := by
  unfold checkResourceCapacity
  cases maxA with
  | none => simp
  | some m =>
      simp only []
      by_cases hgt : calculateMaxConcurrent rfeats > m
      · rw [if_pos hgt]
        constructor
        · intro h
          exact ⟨m, rfl, hgt, (Option.some_inj.mp h).symm⟩
        · rintro ⟨m', hm', _, hw⟩
          cases Option.some_inj.mp hm'
          rw [hw]
      · rw [if_neg hgt]
        constructor
        · intro h
          cases h
        · rintro ⟨m', hm', hgt', _⟩
          cases Option.some_inj.mp hm'
          exact absurd hgt' hgt

/-- Claim C7: `checkCapacity` emits a warning for a resource group iff the
sweep peak (`calculateMaxConcurrent`: running maximum over +1 events at each
`startAt` and −1 events at each `endAt`, stably sorted by date) strictly
exceeds the rule's configured maximum; the warning carries the resource id,
first-occurrence display name, resource kind, the configured maximum, the
actual peak, and the names of all features in the group.  The checker only
returns warnings — its type carries no date updates, so it never changes
dates. -/
theorem claim_C7 (features : List GanttFeature) (rules : List SchedulingRule)
    (w : CapacityWarning) :
    w ∈ checkCapacity features rules ↔
      ∃ rule ∈ rules, rule.type = "capacity" ∧ rule.enabled = true ∧
        ∃ m, rule.config.maxConcurrent = some m ∧
          ∃ entry ∈ groupFeaturesByResource features (rule.config.groupBy.getD "group"),
            calculateMaxConcurrent entry.2.features > m ∧
            w = { resourceId := entry.1, resourceName := entry.2.name,
                  resourceType := rule.config.groupBy.getD "group",
                  maxConcurrent := m,
                  actualConcurrent := calculateMaxConcurrent entry.2.features,
                  overlappingFeatures := entry.2.features.map (fun f => f.name) } := by
  unfold checkCapacity
  rw [List.mem_flatten]
  constructor
  · rintro ⟨l, hl, hw⟩
    rw [List.mem_map] at hl
    obtain ⟨rule, hrule, rfl⟩ := hl
    rw [List.mem_filter] at hrule
    obtain ⟨hmem, hcond⟩ := hrule
    rw [List.mem_filterMap] at hw
    obtain ⟨entry, hentry, hsome⟩ := hw
    rw [checkResourceCapacity_eq_some] at hsome
    obtain ⟨m, hm, hgt, hw⟩ := hsome
    simp only [Bool.and_eq_true, decide_eq_true_eq] at hcond
    exact ⟨rule, hmem, hcond.1, hcond.2, m, hm, entry, hentry, hgt, hw⟩
  · rintro ⟨rule, hmem, hty, hen, m, hm, entry, hentry, hgt, hw⟩
    refine ⟨(groupFeaturesByResource features (rule.config.groupBy.getD "group")).filterMap
      (fun rg => checkResourceCapacity rg.1 rg.2.name rg.2.features
        rule.config.maxConcurrent (rule.config.groupBy.getD "group")), ?_, ?_⟩
    · rw [List.mem_map]
      refine ⟨rule, ?_, rfl⟩
      rw [List.mem_filter]
      refine ⟨hmem, ?_⟩
      simp [hty, hen]
    · rw [List.mem_filterMap]
      exact ⟨entry, hentry, (checkResourceCapacity_eq_some _ _ _ _ _ _).mpr ⟨m, hm, hgt, hw⟩⟩

theorem foldlRenderPrefix (l : List ArrowEndpoint) (a : String) :
    ∃ r, l.foldl (fun acc q => acc ++ " L " ++ renderPoint q) a = a ++ r := by
  induction l generalizing a with
  | nil => exact ⟨"", by simp⟩
  | cons q rest ih =>
      obtain ⟨r, hr⟩ := ih (a ++ " L " ++ renderPoint q)
      refine ⟨" L " ++ renderPoint q ++ r, ?_⟩
      simp only [List.foldl_cons]
      rw [hr]
      simp [String.append_assoc]

theorem foldlRenderSuffix (l : List ArrowEndpoint) (t : ArrowEndpoint)
    (h : l.getLast? = some t) (a : String) :
    ∃ pre, l.foldl (fun acc q => acc ++ " L " ++ renderPoint q) a =
      pre ++ (" L " ++ renderPoint t) := by
  induction l generalizing a with
  | nil => cases h
  | cons q rest ih =>
      cases rest with
      | nil =>
          simp only [List.getLast?_singleton, Option.some_inj] at h
          subst h
          exact ⟨a, by simp [String.append_assoc]⟩
      | cons q2 rest2 =>
          have h2 : (q2 :: rest2).getLast? = some t := by
            simpa [List.getLast?_cons_cons] using h
          exact ih h2 _

theorem renderPath_points (p : ArrowEndpoint) (mid : List ArrowEndpoint)
    (t : ArrowEndpoint) :
    (∃ r, renderPath (p :: mid ++ [t]) = ("M " ++ renderPoint p) ++ r) ∧
    (∃ pre, renderPath (p :: mid ++ [t]) = pre ++ (" L " ++ renderPoint t)) := by
  constructor
  · simpa [renderPath] using foldlRenderPrefix (mid ++ [t]) ("M " ++ renderPoint p)
  · refine foldlRenderSuffix (mid ++ [t]) t ?_ _
    simp [List.getLast?_append]

theorem calculateDependencyPath_shape (s t : ArrowEndpoint) (tfr : Bool)
    (obstacles : List Obstacle) :
    ∃ mid, calculateDependencyPath s t tfr obstacles = s :: mid ++ [t] := by
  unfold calculateDependencyPath
  dsimp only
  split_ifs <;>
    first
    | exact ⟨[], rfl⟩
    | exact ⟨[_, _], rfl⟩
    | exact ⟨[_, _, _, _], rfl⟩

/-- Claim C9: for every dependency whose source and target features both
have positions, the endpoints sit at the vertical centers of the bars with
the horizontal edges of the type table (FS right/left, SS left/left,
FF right/right, SF left/right), the computed polyline runs from the source
point to the target point, and the rendered path string starts with
`M source.x source.y` and ends with the segment `L target.x target.y`. -/
theorem claim_C9 (dep : GanttDependency)
    (positions : String → Option FeaturePosition) (sp tp : FeaturePosition)
    (obstacles : List Obstacle)
    (hs : positions dep.sourceId = some sp) (ht : positions dep.targetId = some tp)
    (hty : dep.type = "FS" ∨ dep.type = "SS" ∨ dep.type = "FF" ∨ dep.type = "SF") :
    ∃ ep, calculateDependencyEndpoints dep positions = some ep ∧
      ep.source.y = sp.top + sp.height / 2 ∧
      ep.target.y = tp.top + tp.height / 2 ∧
      ep.source.x = (if dep.type = "FS" ∨ dep.type = "FF"
        then sp.left + sp.width else sp.left) ∧
      ep.target.x = (if dep.type = "FS" ∨ dep.type = "SS"
        then tp.left else tp.left + tp.width) ∧
      ∃ mid, calculateDependencyPath ep.source ep.target ep.targetFromRight obstacles =
          ep.source :: mid ++ [ep.target] ∧
        (∃ r, renderPath (ep.source :: mid ++ [ep.target]) =
          ("M " ++ renderPoint ep.source) ++ r) ∧
        (∃ pre, renderPath (ep.source :: mid ++ [ep.target]) =
          pre ++ (" L " ++ renderPoint ep.target)) := by
  have hend : ∀ ep, calculateDependencyEndpoints dep positions = some ep →
      ∃ mid, calculateDependencyPath ep.source ep.target ep.targetFromRight obstacles =
          ep.source :: mid ++ [ep.target] ∧
        (∃ r, renderPath (ep.source :: mid ++ [ep.target]) =
          ("M " ++ renderPoint ep.source) ++ r) ∧
        (∃ pre, renderPath (ep.source :: mid ++ [ep.target]) =
          pre ++ (" L " ++ renderPoint ep.target)) := by
    intro ep _
    obtain ⟨mid, hmid⟩ := calculateDependencyPath_shape ep.source ep.target
      ep.targetFromRight obstacles
    obtain ⟨h1, h2⟩ := renderPath_points ep.source mid ep.target
    exact ⟨mid, hmid, h1, h2⟩
  rcases hty with h | h | h | h
  · have hepeq : calculateDependencyEndpoints dep positions =
        some { source := { x := sp.left + sp.width, y := sp.top + sp.height / 2 },
               target := { x := tp.left, y := tp.top + tp.height / 2 },
               targetFromRight := false } := by
      unfold calculateDependencyEndpoints
      rw [hs, ht]
      simp [h]
    exact ⟨_, hepeq, rfl, rfl, by simp [h], by simp [h], hend _ hepeq⟩
  · have hepeq : calculateDependencyEndpoints dep positions =
        some { source := { x := sp.left, y := sp.top + sp.height / 2 },
               target := { x := tp.left, y := tp.top + tp.height / 2 },
               targetFromRight := false } := by
      unfold calculateDependencyEndpoints
      rw [hs, ht]
      simp [h]
    exact ⟨_, hepeq, rfl, rfl, by simp [h], by simp [h], hend _ hepeq⟩
  · have hepeq : calculateDependencyEndpoints dep positions =
        some { source := { x := sp.left + sp.width, y := sp.top + sp.height / 2 },
               target := { x := tp.left + tp.width, y := tp.top + tp.height / 2 },
               targetFromRight := true } := by
      unfold calculateDependencyEndpoints
      rw [hs, ht]
      simp [h]
    exact ⟨_, hepeq, rfl, rfl, by simp [h], by simp [h], hend _ hepeq⟩
  · have hepeq : calculateDependencyEndpoints dep positions =
        some { source := { x := sp.left, y := sp.top + sp.height / 2 },
               target := { x := tp.left + tp.width, y := tp.top + tp.height / 2 },
               targetFromRight := true } := by
      unfold calculateDependencyEndpoints
      rw [hs, ht]
      simp [h]
    exact ⟨_, hepeq, rfl, rfl, by simp [h], by simp [h], hend _ hepeq⟩

theorem getFeatureConstraint_mem (fid : String) (rules : List SchedulingRule)
    (c : RuleConfig) (h : getFeatureConstraint fid rules = some c) :
    ∃ r ∈ rules, r.type = "constraint" ∧ r.enabled = true ∧ r.config = c := by
  induction rules with
  | nil => simp [getFeatureConstraint] at h
  | cons r rest ih =>
      unfold getFeatureConstraint at h
      split_ifs at h with h1 h2 h3
      · obtain ⟨r', hr', hp⟩ := ih h
        exact ⟨r', List.mem_cons_of_mem _ hr', hp⟩
      · push_neg at h1
        refine ⟨r, List.mem_cons_self _ _, h1.1, ?_, Option.some_inj.mp h⟩
        simpa using h1.2
      · push_neg at h1
        refine ⟨r, List.mem_cons_self _ _, h1.1, ?_, Option.some_inj.mp h⟩
        simpa using h1.2
      · obtain ⟨r', hr', hp⟩ := ih h
        exact ⟨r', List.mem_cons_of_mem _ hr', hp⟩

theorem getFeatureConstraint_isSome (fid : String) (rules : List SchedulingRule)
    (r : SchedulingRule) (hr : r ∈ rules) (hty : r.type = "constraint")
    (hen : r.enabled = true)
    (hcov : r.config.featureIds.getD [] = [] ∨ fid ∈ r.config.featureIds.getD []) :
    ∃ c, getFeatureConstraint fid rules = some c := by
  induction rules with
  | nil => cases hr
  | cons r0 rest ih =>
      unfold getFeatureConstraint
      split_ifs with h1 h2 h3
      · rcases List.mem_cons.mp hr with rfl | hmem
        · exfalso
          rcases h1 with h1 | h1
          · exact h1 hty
          · rw [hen] at h1; cases h1
        · exact ih hmem
      · exact ⟨r0.config, rfl⟩
      · exact ⟨r0.config, rfl⟩
      · rcases List.mem_cons.mp hr with rfl | hmem
        · rcases hcov with hc | hc
          · exact absurd hc h2
          · exact absurd hc h3
        · exact ih hmem

theorem processFeatureWithRules_constrained (fuel : Nat) (fid : String)
    (fmap : FMap) (g : String → List GanttDependency)
    (rules : List SchedulingRule) (c : RuleConfig)
    (hc1 : getFeatureConstraint fid rules = some c)
    (hc2 : c.constraintType = some "fixed_both" ∨
      c.constraintType = some "fixed_start" ∨ c.constraintType = some "fixed_end") :
    processFeatureWithRules fuel fid fmap g rules = .ok (fmap, none) := by
  unfold processFeatureWithRules
  cases hm : fmap fid with
  | none => rfl
  | some f =>
      rw [hc1]
      exact if_pos hc2

theorem applyConstraintWithRules_id (fuel : Nat) (f : GanttFeature) (cs : Int)
    (fid : String) (rules : List SchedulingRule)
    (p : GanttFeature × FeatureUpdate)
    (h : applyConstraintWithRules fuel f cs fid rules = .ok (some p)) :
    p.2.id = fid := by
  unfold applyConstraintWithRules at h
  simp only [Bind.bind, Except.bind] at h
  cases he : addWorkingDays fuel
      (match getAlignmentDay fid rules with
       | some alignmentDay => alignToWeekday cs alignmentDay
       | none => cs)
      (getWorkingDaysBetween f.startAt f.endAt rules) rules with
  | error e => rw [he] at h; cases h
  | ok newEnd =>
      rw [he] at h
      split_ifs at h
      · cases h
        rfl
      · cases h

theorem processFeatureWithRulesCore_id (fuel : Nat) (fid : String)
    (f : GanttFeature) (fmap : FMap) (incoming : List GanttDependency)
    (rules : List SchedulingRule) (m' : FMap) (u : FeatureUpdate)
    (h : processFeatureWithRulesCore fuel fid f fmap incoming rules =
      .ok (m', some u)) : u.id = fid := by
  unfold processFeatureWithRulesCore at h
  split_ifs at h
  · cases h
  · simp only [Bind.bind, Except.bind] at h
    cases hf : findConstraintStartWithRules fuel f incoming fmap rules with
    | error e => rw [hf] at h; cases h
    | ok acc =>
        rw [hf] at h
        dsimp only at h
        cases acc with
        | none => cases h
        | some cs =>
            dsimp only at h
            cases ha : applyConstraintWithRules fuel f cs fid rules with
            | error e => rw [ha] at h; cases h
            | ok res =>
                rw [ha] at h
                dsimp only at h
                cases res with
                | none => cases h
                | some p =>
                    dsimp only at h
                    rw [Except.ok.injEq, Prod.mk.injEq] at h
                    cases Option.some_inj.mp h.2
                    exact applyConstraintWithRules_id fuel f cs fid rules p ha

theorem processFeatureWithRules_update_id (fuel : Nat) (fid : String)
    (fmap : FMap) (g : String → List GanttDependency)
    (rules : List SchedulingRule) (m' : FMap) (u : FeatureUpdate)
    (h : processFeatureWithRules fuel fid fmap g rules = .ok (m', some u)) :
    u.id = fid := by
  unfold processFeatureWithRules at h
  cases hm : fmap fid with
  | none => rw [hm] at h; cases h
  | some f =>
      rw [hm] at h
      dsimp only at h
      cases hc : getFeatureConstraint fid rules with
      | none =>
          rw [hc] at h
          dsimp only at h
          exact processFeatureWithRulesCore_id _ _ _ _ _ _ _ _ h
      | some c =>
          rw [hc] at h
          dsimp only at h
          split_ifs at h
          · cases h
          · exact processFeatureWithRulesCore_id _ _ _ _ _ _ _ _ h

theorem recalcLoop_constrained_not_mem (fuel : Nat)
    (g : String → List GanttDependency) (er : List SchedulingRule)
    (fid : String) (c : RuleConfig)
    (hc1 : getFeatureConstraint fid er = some c)
    (hc2 : c.constraintType = some "fixed_both" ∨
      c.constraintType = some "fixed_start" ∨ c.constraintType = some "fixed_end") :
    ∀ (order : List String) (m : FMap) (us : List FeatureUpdate),
      (∀ u ∈ us, u.id ≠ fid) →
      ∀ (m' : FMap) (us' : List FeatureUpdate),
        recalcLoop true fuel g er order m us = .ok (m', us') →
        ∀ u ∈ us', u.id ≠ fid := by
  intro order
  induction order with
  | nil =>
      intro m us hus m' us' h
      unfold recalcLoop at h
      cases h
      exact hus
  | cons x rest ih =>
      intro m us hus m' us' h
      unfold recalcLoop at h
      simp only [if_true] at h
      simp only [Bind.bind, Except.bind] at h
      cases hp : processFeatureWithRules fuel x m g er with
      | error e => rw [hp] at h; cases h
      | ok pr =>
          rw [hp] at h
          obtain ⟨m1, u?⟩ := pr
          dsimp only at h
          cases u? with
          | none => exact ih m1 us hus m' us' h
          | some u =>
              have hid : u.id = x := processFeatureWithRules_update_id _ _ _ _ _ _ _ hp
              have hxne : x ≠ fid := by
                intro hx
                rw [hx] at hp
                rw [processFeatureWithRules_constrained fuel fid m g er c hc1 hc2] at hp
                cases hp
              refine ih m1 (us ++ [u]) ?_ m' us' h
              intro v hv
              rcases List.mem_append.mp hv with hv | hv
              · exact hus v hv
              · rw [List.mem_singleton.mp hv, hid]
                exact hxne

/-- Claim C5: a feature covered by an enabled constraint rule of type
`fixed_both` (its id is in the rule's feature-id list, or the list is
empty/absent) never receives an update from `recalculateSchedule`,
regardless of its predecessors.  The hypothesis `hwt` is the TypeScript
typing of `ConstraintConfig`: every constraint rule's `constraintType` is
one of the three closed-union members. -/
theorem claim_C5 (fuel : Nat) (features : List GanttFeature)
    (deps : List GanttDependency) (rules : List SchedulingRule)
    (fid : String) (r : SchedulingRule)
    (hr : r ∈ rules) (hty : r.type = "constraint") (hen : r.enabled = true)
    (hcov : r.config.featureIds.getD [] = [] ∨ fid ∈ r.config.featureIds.getD [])
    (_hfix : r.config.constraintType = some "fixed_both")
    (hwt : ∀ r' ∈ rules, r'.type = "constraint" →
      r'.config.constraintType = some "fixed_both" ∨
      r'.config.constraintType = some "fixed_start" ∨
      r'.config.constraintType = some "fixed_end")
    (us : List FeatureUpdate)
    (hok : recalculateSchedule fuel features deps rules = .ok us) :
    ∀ u ∈ us, u.id ≠ fid := by
  unfold recalculateSchedule at hok
  simp only [Bind.bind, Except.bind] at hok
  have hrmem : r ∈ rules.filter (fun r => r.enabled) :=
    List.mem_filter.mpr ⟨hr, hen⟩
  have hlen : (rules.filter (fun r => r.enabled)).length ≠ 0 := by
    intro h0
    rw [List.length_eq_zero] at h0
    rw [h0] at hrmem
    cases hrmem
  have hdec : decide ((rules.filter (fun r => r.enabled)).length ≠ 0) = true :=
    decide_eq_true hlen
  rw [hdec] at hok
  cases hloop : recalcLoop true fuel (buildReverseDependencyGraph deps)
      (rules.filter (fun r => r.enabled)) (topologicalSort features deps)
      (buildFeaturesMap features) [] with
  | error e => rw [hloop] at hok; cases hok
  | ok pr =>
      rw [hloop] at hok
      obtain ⟨mf, us'⟩ := pr
      dsimp only at hok
      cases hok
      obtain ⟨c, hcsome⟩ :=
        getFeatureConstraint_isSome fid (rules.filter (fun r => r.enabled)) r
          hrmem hty hen hcov
      obtain ⟨r', hr'mem, hr'ty, _, hr'cfg⟩ :=
        getFeatureConstraint_mem fid (rules.filter (fun r => r.enabled)) c hcsome
      have h3 := hwt r' (List.mem_filter.mp hr'mem).1 hr'ty
      rw [hr'cfg] at h3
      exact recalcLoop_constrained_not_mem fuel _ _ fid c hcsome h3 _ _ _
        (by intro u hu; cases hu) _ _ hloop

/-- Fixed-both constraint rule scoped to feature B. -/
def fixedBothRuleB : SchedulingRule :=
  { id := "rFix", type := "constraint", name := "fix B",
    config := { constraintType := some "fixed_both", featureIds := some ["B"] },
    enabled := true }

/-- Witness for C5: on the chain A→B with B under an enabled `fixed_both`
constraint, recalculation returns no updates at all, and in particular none
for B. -/
theorem claim_C5_witness :
    recalculateSchedule 100 [mkFeature "A" 0 5, mkFeature "B" 10 12]
      [mkDep "dAB" "A" "B" "FS"] [fixedBothRuleB] = .ok [] ∧
    ∀ u ∈ ([] : List FeatureUpdate), u.id ≠ "B" :=
  ⟨by decide,
   claim_C5 100 [mkFeature "A" 0 5, mkFeature "B" 10 12]
     [mkDep "dAB" "A" "B" "FS"] [fixedBothRuleB] "B" fixedBothRuleB
     (by decide) (by decide) (by decide) (by decide) (by decide)
     (by intro r' hmem hty
         rw [List.mem_singleton.mp hmem]
         exact Or.inl (by decide))
     [] (by decide)⟩

/-- A dependency-type string drawn from the closed TypeScript union. -/
def validDepType (ty : String) : Prop :=
  ty = "FS" ∨ ty = "SS" ∨ ty = "FF" ∨ ty = "SF"

/-- The engine computation either succeeded or ran out of fuel — it never
reached a `throw` branch. -/
def OkOrFuel {a : Type} (x : SchedM a) : Prop :=
  (∃ v, x = .ok v) ∨ x = .error .outOfFuel

theorem okOrFuel_bind {a b : Type} (x : SchedM a) (f : a → SchedM b)
    (hx : OkOrFuel x) (hf : ∀ v, OkOrFuel (f v)) : OkOrFuel (x >>= f) := by
  rcases hx with ⟨v, hv⟩ | hx
  · rw [hv]
    simpa [Bind.bind, Except.bind] using hf v
  · rw [hx]
    right
    rfl

theorem skipNonWorkingForward_okOrFuel (fuel : Nat) (d : Int)
    (rules : List SchedulingRule) : OkOrFuel (skipNonWorkingForward fuel d rules) := by
  induction fuel generalizing d with
  | zero =>
      unfold skipNonWorkingForward
      split_ifs
      · right; rfl
      · exact Or.inl ⟨d, rfl⟩
  | succ fuel ih =>
      unfold skipNonWorkingForward
      split_ifs
      · exact ih _
      · exact Or.inl ⟨d, rfl⟩

theorem addWorkingDaysGo_okOrFuel (fuel : Nat) (current : Int)
    (daysAdded days : Int) (rules : List SchedulingRule) :
    OkOrFuel (addWorkingDaysGo fuel current daysAdded days rules) := by
  induction fuel generalizing current daysAdded with
  | zero =>
      unfold addWorkingDaysGo
      split_ifs
      · right; rfl
      · exact Or.inl ⟨current, rfl⟩
  | succ fuel ih =>
      unfold addWorkingDaysGo
      split_ifs
      · exact ih _ _
      · exact Or.inl ⟨current, rfl⟩

theorem addWorkingDays_okOrFuel (fuel : Nat) (startDate days : Int)
    (rules : List SchedulingRule) :
    OkOrFuel (addWorkingDays fuel startDate days rules) := by
  unfold addWorkingDays
  split_ifs
  · exact Or.inl ⟨_, rfl⟩
  · exact okOrFuel_bind _ _ (skipNonWorkingForward_okOrFuel _ _ _)
      (fun v => addWorkingDaysGo_okOrFuel _ _ _ _ _)

theorem skipNonWorkingBackward_okOrFuel (fuel : Nat) (d : Int)
    (rules : List SchedulingRule) : OkOrFuel (skipNonWorkingBackward fuel d rules) := by
  induction fuel generalizing d with
  | zero =>
      unfold skipNonWorkingBackward
      split_ifs
      · right; rfl
      · exact Or.inl ⟨d, rfl⟩
  | succ fuel ih =>
      unfold skipNonWorkingBackward
      split_ifs
      · exact ih _
      · exact Or.inl ⟨d, rfl⟩

theorem subtractWorkingDaysGo_okOrFuel (fuel : Nat) (current : Int)
    (daysSubtracted days : Int) (rules : List SchedulingRule) :
    OkOrFuel (subtractWorkingDaysGo fuel current daysSubtracted days rules) := by
  induction fuel generalizing current daysSubtracted with
  | zero =>
      unfold subtractWorkingDaysGo
      split_ifs
      · right; rfl
      · exact Or.inl ⟨current, rfl⟩
  | succ fuel ih =>
      unfold subtractWorkingDaysGo
      split_ifs
      · exact ih _ _
      · exact Or.inl ⟨current, rfl⟩

theorem subtractWorkingDays_okOrFuel (fuel : Nat) (startDate days : Int)
    (rules : List SchedulingRule) :
    OkOrFuel (subtractWorkingDays fuel startDate days rules) := by
  unfold subtractWorkingDays
  split_ifs
  · exact Or.inl ⟨_, rfl⟩
  · exact okOrFuel_bind _ _ (skipNonWorkingBackward_okOrFuel _ _ _)
      (fun v => subtractWorkingDaysGo_okOrFuel _ _ _ _ _)

theorem getConstraintStartWithRules_okOrFuel (fuel : Nat) (source : GanttFeature)
    (w : Int) (ty : String) (rules : List SchedulingRule) (sid tid : String)
    (hty : validDepType ty) :
    OkOrFuel (getConstraintStartWithRules fuel source w ty rules sid tid) := by
  unfold getConstraintStartWithRules
  rcases hty with h | h | h | h <;> subst h <;> simp only [reduceIte]
  · exact addWorkingDays_okOrFuel _ _ _ _
  · exact addWorkingDays_okOrFuel _ _ _ _
  · exact okOrFuel_bind _ _ (addWorkingDays_okOrFuel _ _ _ _)
      (fun v => subtractWorkingDays_okOrFuel _ _ _ _)
  · exact okOrFuel_bind _ _ (addWorkingDays_okOrFuel _ _ _ _)
      (fun v => subtractWorkingDays_okOrFuel _ _ _ _)

theorem getConstraintStart_ok (source : GanttFeature) (dur : Int) (ty : String)
    (hty : validDepType ty) : ∃ v, getConstraintStart source dur ty = .ok v := by
  unfold getConstraintStart
  rcases hty with h | h | h | h <;> subst h <;> simp only [reduceIte] <;>
    exact ⟨_, rfl⟩

theorem findConstraintStartWithRulesGo_okOrFuel (fuel : Nat) (w : Int)
    (fmap : FMap) (rules : List SchedulingRule) (l : List GanttDependency)
    (acc : Option Int) (hl : ∀ d ∈ l, validDepType d.type) :
    OkOrFuel (findConstraintStartWithRulesGo fuel w fmap rules l acc) := by
  induction l generalizing acc with
  | nil =>
      unfold findConstraintStartWithRulesGo
      exact Or.inl ⟨acc, rfl⟩
  | cons dep rest ih =>
      unfold findConstraintStartWithRulesGo
      cases fmap dep.sourceId with
      | none => exact ih acc (fun d hd => hl d (List.mem_cons_of_mem _ hd))
      | some source =>
          dsimp only
          refine okOrFuel_bind _ _
            (getConstraintStartWithRules_okOrFuel _ _ _ _ _ _ _
              (hl dep (List.mem_cons_self _ _))) (fun base => ?_)
          split_ifs
          · refine okOrFuel_bind _ _ (addWorkingDays_okOrFuel _ _ _ _)
              (fun minStart => ?_)
            exact ih _ (fun d hd => hl d (List.mem_cons_of_mem _ hd))
          · refine okOrFuel_bind _ _ (Or.inl ⟨base, rfl⟩) (fun minStart => ?_)
            exact ih _ (fun d hd => hl d (List.mem_cons_of_mem _ hd))

theorem findConstraintStartGo_ok (dur : Int) (fmap : FMap)
    (l : List GanttDependency) (acc : Option Int)
    (hl : ∀ d ∈ l, validDepType d.type) :
    ∃ v, findConstraintStartGo dur fmap l acc = .ok v := by
  induction l generalizing acc with
  | nil =>
      unfold findConstraintStartGo
      exact ⟨acc, rfl⟩
  | cons dep rest ih =>
      unfold findConstraintStartGo
      cases fmap dep.sourceId with
      | none => exact ih acc (fun d hd => hl d (List.mem_cons_of_mem _ hd))
      | some source =>
          dsimp only
          obtain ⟨v, hv⟩ :=
            getConstraintStart_ok source dur dep.type (hl dep (List.mem_cons_self _ _))
          rw [hv]
          simp only [Bind.bind, Except.bind]
          exact ih _ (fun d hd => hl d (List.mem_cons_of_mem _ hd))

theorem applyConstraintWithRules_okOrFuel (fuel : Nat) (f : GanttFeature)
    (cs : Int) (fid : String) (rules : List SchedulingRule) :
    OkOrFuel (applyConstraintWithRules fuel f cs fid rules) := by
  unfold applyConstraintWithRules
  refine okOrFuel_bind _ _ (addWorkingDays_okOrFuel _ _ _ _) (fun newEnd => ?_)
  split_ifs
  · exact Or.inl ⟨_, rfl⟩
  · exact Or.inl ⟨_, rfl⟩

theorem processFeatureWithRulesCore_okOrFuel (fuel : Nat) (fid : String)
    (f : GanttFeature) (fmap : FMap) (incoming : List GanttDependency)
    (rules : List SchedulingRule) (hl : ∀ d ∈ incoming, validDepType d.type) :
    OkOrFuel (processFeatureWithRulesCore fuel fid f fmap incoming rules) := by
  unfold processFeatureWithRulesCore
  split_ifs
  · exact Or.inl ⟨_, rfl⟩
  · refine okOrFuel_bind _ _ ?_ (fun acc => ?_)
    · exact findConstraintStartWithRulesGo_okOrFuel _ _ _ _ _ _ hl
    · cases acc with
      | none => exact Or.inl ⟨_, rfl⟩
      | some cs =>
          refine okOrFuel_bind _ _ (applyConstraintWithRules_okOrFuel _ _ _ _ _)
            (fun res => ?_)
          cases res with
          | none => exact Or.inl ⟨_, rfl⟩
          | some p => exact Or.inl ⟨_, rfl⟩

theorem processFeatureWithRules_okOrFuel (fuel : Nat) (fid : String)
    (fmap : FMap) (g : String → List GanttDependency)
    (rules : List SchedulingRule) (hg : ∀ d ∈ g fid, validDepType d.type) :
    OkOrFuel (processFeatureWithRules fuel fid fmap g rules) := by
  unfold processFeatureWithRules
  cases fmap fid with
  | none => exact Or.inl ⟨_, rfl⟩
  | some f =>
      dsimp only
      cases getFeatureConstraint fid rules with
      | none => exact processFeatureWithRulesCore_okOrFuel _ _ _ _ _ _ hg
      | some c =>
          dsimp only
          split_ifs
          · exact Or.inl ⟨_, rfl⟩
          · exact processFeatureWithRulesCore_okOrFuel _ _ _ _ _ _ hg

theorem processFeatureLegacy_ok (fid : String) (fmap : FMap)
    (g : String → List GanttDependency) (hg : ∀ d ∈ g fid, validDepType d.type) :
    ∃ v, processFeatureLegacy fid fmap g = .ok v := by
  unfold processFeatureLegacy
  cases fmap fid with
  | none => exact ⟨_, rfl⟩
  | some f =>
      dsimp only
      split_ifs
      · exact ⟨_, rfl⟩
      · obtain ⟨acc, hacc⟩ := findConstraintStartGo_ok
          (differenceInDays f.endAt f.startAt) fmap (g fid) none hg
        unfold findConstraintStart
        rw [hacc]
        simp only [Bind.bind, Except.bind]
        cases acc with
        | none => exact ⟨_, rfl⟩
        | some cs =>
            dsimp only
            cases applyConstraint f cs fid with
            | none => exact ⟨_, rfl⟩
            | some p => exact ⟨_, rfl⟩

theorem recalcLoop_okOrFuel (useRules : Bool) (fuel : Nat)
    (g : String → List GanttDependency) (er : List SchedulingRule)
    (hg : ∀ id, ∀ d ∈ g id, validDepType d.type) :
    ∀ (order : List String) (m : FMap) (us : List FeatureUpdate),
      OkOrFuel (recalcLoop useRules fuel g er order m us) := by
  intro order
  induction order with
  | nil =>
      intro m us
      unfold recalcLoop
      exact Or.inl ⟨_, rfl⟩
  | cons x rest ih =>
      intro m us
      unfold recalcLoop
      dsimp only
      split_ifs
      · refine okOrFuel_bind _ _ (processFeatureWithRules_okOrFuel _ _ _ _ _ (hg x))
          (fun pr => ?_)
        obtain ⟨m1, u1⟩ := pr
        exact ih _ _
      · refine okOrFuel_bind _ _ ?_ (fun pr => ?_)
        · rcases processFeatureLegacy_ok x m g (hg x) with ⟨v, hv⟩
          exact Or.inl ⟨v, hv⟩
        · obtain ⟨m1, u1⟩ := pr
          exact ih _ _

/-- All error exits of `recalculateSchedule` are fuel exhaustion when every
dependency type is valid: the `throw` branches are unreachable. -/
theorem recalculateSchedule_okOrFuel (fuel : Nat) (features : List GanttFeature)
    (deps : List GanttDependency) (rules : List SchedulingRule)
    (hv : ∀ d ∈ deps, validDepType d.type) :
    OkOrFuel (recalculateSchedule fuel features deps rules) := by
  unfold recalculateSchedule
  refine okOrFuel_bind _ _ ?_ (fun pr => Or.inl ⟨_, rfl⟩)
  refine recalcLoop_okOrFuel _ _ _ _ ?_ _ _ _
  intro id d hd
  unfold buildReverseDependencyGraph at hd
  exact hv d (List.mem_filter.mp hd).1

theorem calculateTargetDates_ok (source target : GanttFeature) (ty : String)
    (hty : validDepType ty) : ∃ v, calculateTargetDates source target ty = .ok v := by
  unfold calculateTargetDates
  rcases hty with h | h | h | h <;> subst h <;> simp only [reduceIte] <;> exact ⟨_, rfl⟩

theorem processDependency_ok (dep : GanttDependency)
    (source target : GanttFeature) (fmap : FMap) (us : List FeatureUpdate)
    (p : List String) (hty : validDepType dep.type) :
    ∃ t, processDependency dep source target fmap us p = .ok t := by
  unfold processDependency
  obtain ⟨v, hv⟩ := calculateTargetDates_ok source target dep.type hty
  rw [hv]
  simp only [Bind.bind, Except.bind]
  split_ifs <;> exact ⟨_, rfl⟩

theorem processOutgoing_ok (currentId : String) (l : List GanttDependency)
    (fmap : FMap) (us : List FeatureUpdate) (p : List String)
    (hl : ∀ d ∈ l, validDepType d.type) :
    ∃ t, processOutgoing currentId l fmap us p = .ok t := by
  induction l generalizing fmap us p with
  | nil => exact ⟨_, rfl⟩
  | cons dep rest ih =>
      unfold processOutgoing
      cases fmap currentId with
      | none => exact ih fmap us p (fun d hd => hl d (List.mem_cons_of_mem _ hd))
      | some source =>
          dsimp only
          cases fmap dep.targetId with
          | none => exact ih fmap us p (fun d hd => hl d (List.mem_cons_of_mem _ hd))
          | some target =>
              dsimp only
              obtain ⟨t1, ht1⟩ := processDependency_ok dep source target fmap us p
                (hl dep (List.mem_cons_self _ _))
              rw [ht1]
              simp only [Bind.bind, Except.bind]
              obtain ⟨f1, u1, p1⟩ := t1
              exact ih f1 u1 p1 (fun d hd => hl d (List.mem_cons_of_mem _ hd))

theorem unvisitedCount_nil (l : List String) : unvisitedCount l [] = l.length := by
  unfold unvisitedCount
  induction l with
  | nil => rfl
  | cons a rest ih => simp [ih]

theorem autoScheduleLoop_ok (deps : List GanttDependency) (allIds : List String)
    (hv : ∀ d ∈ deps, validDepType d.type) :
    ∀ (fuel : Nat) (queue visited : List String) (fmap : FMap)
      (updates : List FeatureUpdate),
      unvisitedCount allIds visited * (deps.length + 1) + queue.length < fuel →
      ∃ res, autoScheduleLoop deps allIds fuel queue visited fmap updates = .ok res := by
  intro fuel
  induction fuel with
  | zero =>
      intro queue visited fmap updates hm
      omega
  | succ fuel ih =>
      intro queue visited fmap updates hm
      cases queue with
      | nil => exact ⟨_, rfl⟩
      | cons currentId rest =>
          unfold autoScheduleLoop
          split_ifs with h
          · refine ih rest visited fmap updates ?_
            simp only [List.length_cons] at hm
            omega
          · push_neg at h
            obtain ⟨trip, htrip⟩ := processOutgoing_ok currentId
              (buildDependencyGraph deps currentId) fmap updates []
              (fun d hd => hv d (by
                unfold buildDependencyGraph at hd
                exact (List.mem_filter.mp hd).1))
            rw [htrip]
            obtain ⟨fmap', updates', pushed⟩ := trip
            dsimp only
            refine ih (rest ++ pushed) (currentId :: visited) fmap' updates' ?_
            have hu := unvisitedCount_cons_lt allIds visited currentId h.2.2 h.2.1
            have hp := processOutgoing_pushed_le _ _ _ _ _ _ _ _ htrip
            have hd : (buildDependencyGraph deps currentId).length ≤ deps.length := by
              unfold buildDependencyGraph
              exact List.length_filter_le _ _
            have h5 := measureLt (unvisitedCount allIds (currentId :: visited))
              (unvisitedCount allIds visited) deps.length
              (buildDependencyGraph deps currentId).length rest.length pushed.length
              hu hd (by simpa using hp)
            simp only [List.length_append, List.length_cons] at *
            omega

theorem autoSchedule_ok (movedId : String) (ns ne : Int)
    (features : List GanttFeature) (deps : List GanttDependency)
    (hv : ∀ d ∈ deps, validDepType d.type) :
    ∃ us, autoSchedule movedId ns ne features deps = .ok us := by
  unfold autoSchedule
  dsimp only
  obtain ⟨res, hres⟩ := autoScheduleLoop_ok deps
    (movedId :: features.map (fun f => f.id)) hv
    ((movedId :: features.map (fun f => f.id)).length * (deps.length + 1) + 2)
    [movedId] [] _ _
    (by
      rw [unvisitedCount_nil]
      have h1 : ([movedId] : List String).length = 1 := rfl
      omega)
  rw [hres]
  simp only [Bind.bind, Except.bind]
  obtain ⟨mf, us⟩ := res
  exact ⟨us, rfl⟩

/-- Claim C8: under the precondition that every dependency's type lies in
the closed set FS/SS/FF/SF, the engine operations never reach a `throw`:
`autoSchedule` always succeeds (dependencies whose source or target feature
is missing are silently skipped, and cyclic graphs terminate through the
visited set), and `recalculateSchedule` either succeeds or — only when a
time-off rule leaves no working day to advance to — exhausts its loop fuel;
it never reaches the unknown-dependency-type error.  `checkCapacity` and
`validateDuration` are plain total functions of the embedding (they have no
throwing branch at all). -/
theorem claim_C8 (movedId : String) (ns ne : Int)
    (features : List GanttFeature) (deps : List GanttDependency)
    (rules : List SchedulingRule) (fuel : Nat)
    (hv : ∀ d ∈ deps, d.type ∈ (["FS", "SS", "FF", "SF"] : List String)) :
    (∃ us, autoSchedule movedId ns ne features deps = .ok us) ∧
    ((∃ us, recalculateSchedule fuel features deps rules = .ok us) ∨
      recalculateSchedule fuel features deps rules = .error .outOfFuel) := by
  have hv' : ∀ d ∈ deps, validDepType d.type := by
    intro d hd
    have := hv d hd
    simpa [validDepType] using this
  exact ⟨autoSchedule_ok movedId ns ne features deps hv',
    recalculateSchedule_okOrFuel fuel features deps rules hv'⟩

/-- Witness input for C8: a dependency cycle A↔B plus an edge to a missing
feature X, with a time-off rule enabled. -/
def c8Deps : List GanttDependency :=
  [mkDep "dAB" "A" "B" "FS", mkDep "dBA" "B" "A" "FS", mkDep "dAX" "A" "X" "FS"]

/-- Witness for C8 at a cyclic input with a missing feature id. -/
theorem claim_C8_witness :
    (∀ d ∈ c8Deps, d.type ∈ (["FS", "SS", "FF", "SF"] : List String)) ∧
    ((∃ us, autoSchedule "A" 0 10 [mkFeature "A" 0 5, mkFeature "B" 7 9]
        c8Deps = .ok us) ∧
     ((∃ us, recalculateSchedule 100 [mkFeature "A" 0 5, mkFeature "B" 7 9]
         c8Deps [weekendRule] = .ok us) ∨
       recalculateSchedule 100 [mkFeature "A" 0 5, mkFeature "B" 7 9]
         c8Deps [weekendRule] = .error .outOfFuel)) :=
  ⟨by decide,
   claim_C8 "A" 0 10 [mkFeature "A" 0 5, mkFeature "B" 7 9] c8Deps
     [weekendRule] 100 (by decide)⟩

/-- Overwrite a feature's dates with (the last) update, if any. -/
def applyLast (f : GanttFeature) : Option FeatureUpdate → GanttFeature
  | some u => { f with startAt := u.startAt, endAt := u.endAt }
  | none => f

theorem applyLast_id (f : GanttFeature) (o : Option FeatureUpdate) :
    (applyLast f o).id = f.id := by
  cases o <;> rfl

theorem applyUpdates_eq_map (features : List GanttFeature)
    (us : List FeatureUpdate) :
    applyUpdates features us =
      features.map (fun f => applyLast f (lastUpdateFor us f.id)) := by
  unfold applyUpdates
  refine List.map_congr_left (fun f _ => ?_)
  cases lastUpdateFor us f.id <;> rfl

theorem lastUpdateFor_append (l1 l2 : List FeatureUpdate) (k : String) :
    lastUpdateFor (l1 ++ l2) k =
      match lastUpdateFor l2 k with
      | some u => some u
      | none => lastUpdateFor l1 k := by
  unfold lastUpdateFor
  rw [List.foldl_append]
  generalize (List.foldl (fun acc u => if u.id = k then some u else acc) none l1) = a
  induction l2 generalizing a with
  | nil => cases a <;> rfl
  | cons u rest ih =>
      simp only [List.foldl_cons]
      by_cases hu : u.id = k
      · rw [if_pos hu, if_pos hu]
        rw [ih]
        cases List.foldl (fun acc u => if u.id = k then some u else acc) none rest <;> rfl
      · rw [if_neg hu, if_neg hu]
        exact ih a

theorem lastUpdateFor_cons_ne (u : FeatureUpdate) (l : List FeatureUpdate)
    (k : String) (h : u.id ≠ k) :
    lastUpdateFor (u :: l) k = lastUpdateFor l k := by
  unfold lastUpdateFor
  simp only [List.foldl_cons, if_neg h]

theorem lastUpdateFor_none (l : List FeatureUpdate) (k : String)
    (h : ∀ u ∈ l, u.id ≠ k) : lastUpdateFor l k = none := by
  induction l with
  | nil => rfl
  | cons u rest ih =>
      rw [lastUpdateFor_cons_ne u rest k (h u (List.mem_cons_self _ _))]
      exact ih (fun v hv => h v (List.mem_cons_of_mem _ hv))

theorem applyLast_applyLast (f : GanttFeature) (u : FeatureUpdate)
    (o : Option FeatureUpdate) :
    applyLast (applyLast f (some u)) o =
      applyLast f (match o with | some v => some v | none => some u) := by
  cases o <;> rfl

theorem buildFeaturesMap_id (features : List GanttFeature) (k : String)
    (f : GanttFeature) (h : buildFeaturesMap features k = some f) : f.id = k := by
  induction features using List.reverseRecOn generalizing f with
  | nil => cases h
  | append_singleton rest g ih =>
      unfold buildFeaturesMap at h ih
      rw [List.foldl_append, List.foldl_cons, List.foldl_nil] at h
      by_cases hk : k = g.id
      · rw [if_pos hk] at h
        cases Option.some_inj.mp h
        exact hk.symm
      · rw [if_neg hk] at h
        exact ih f h

theorem buildFeaturesMap_mem (features : List GanttFeature)
    (hnd : (features.map (fun f => f.id)).Nodup) (f : GanttFeature)
    (hf : f ∈ features) : buildFeaturesMap features f.id = some f := by
  induction features using List.reverseRecOn with
  | nil => cases hf
  | append_singleton rest g ih =>
      unfold buildFeaturesMap at ih ⊢
      rw [List.foldl_append, List.foldl_cons, List.foldl_nil]
      rcases List.mem_append.mp hf with hmem | hmem
      · have hne : f.id ≠ g.id := by
          intro he
          rw [List.map_append, List.nodup_append] at hnd
          exact hnd.2.2 (List.mem_map_of_mem _ hmem) (by simp [he])
        rw [if_neg hne]
        refine ih ?_ hmem
        rw [List.map_append, List.nodup_append] at hnd
        exact hnd.1
      · rw [List.mem_singleton.mp hmem]
        rw [if_pos rfl]

theorem buildFeaturesMap_map (features : List GanttFeature)
    (g : GanttFeature → GanttFeature) (hg : ∀ f, (g f).id = f.id) (k : String) :
    buildFeaturesMap (features.map g) k = (buildFeaturesMap features k).map g := by
  unfold buildFeaturesMap
  induction features using List.reverseRecOn with
  | nil => rfl
  | append_singleton rest f ih =>
      rw [List.map_append, List.foldl_append, List.foldl_append]
      simp only [List.map_cons, List.map_nil, List.foldl_cons, List.foldl_nil]
      rw [hg f]
      by_cases hk : k = f.id
      · rw [if_pos hk, if_pos hk]
        rfl
      · rw [if_neg hk, if_neg hk]
        exact ih

theorem applyConstraint_shape (f : GanttFeature) (cs : Int) (fid : String) :
    applyConstraint f cs fid = none ∨
    (∃ upd, applyConstraint f cs fid =
      some (applyLast f (some upd), upd) ∧ upd.id = fid ∧ upd.startAt = cs) := by
  unfold applyConstraint
  dsimp only
  split_ifs
  · exact Or.inr
      ⟨{ id := fid, startAt := cs,
         endAt := addDays cs (differenceInDays f.endAt f.startAt) },
       rfl, rfl, rfl⟩
  · exact Or.inl rfl

theorem processFeatureLegacy_shape (fid : String) (m : FMap)
    (g : String → List GanttDependency) (m' : FMap) (u : Option FeatureUpdate)
    (h : processFeatureLegacy fid m g = .ok (m', u)) :
    (u = none ∧ m' = m) ∨
    (∃ f upd, u = some upd ∧ m fid = some f ∧ upd.id = fid ∧
      m' = mapSet m fid (applyLast f (some upd))) := by
  unfold processFeatureLegacy at h
  cases hm : m fid with
  | none =>
      rw [hm] at h
      cases h
      exact Or.inl ⟨rfl, rfl⟩
  | some f =>
      rw [hm] at h
      dsimp only at h
      split_ifs at h
      · cases h
        exact Or.inl ⟨rfl, rfl⟩
      · simp only [Bind.bind, Except.bind] at h
        cases hgo : findConstraintStart f (g fid) m with
        | error e => rw [hgo] at h; cases h
        | ok acc =>
            rw [hgo] at h
            dsimp only at h
            cases acc with
            | none =>
                cases h
                exact Or.inl ⟨rfl, rfl⟩
            | some cs =>
                dsimp only at h
                rcases applyConstraint_shape f cs fid with hac | ⟨upd, hac, hid, _⟩
                · rw [hac] at h
                  cases h
                  exact Or.inl ⟨rfl, rfl⟩
                · rw [hac] at h
                  dsimp only at h
                  rw [Except.ok.injEq, Prod.mk.injEq] at h
                  exact Or.inr ⟨f, upd, h.2.symm, rfl, hid, h.1.symm⟩

theorem applyConstraintWithRules_shape (fuel : Nat) (f : GanttFeature)
    (cs : Int) (fid : String) (rules : List SchedulingRule)
    (res : Option (GanttFeature × FeatureUpdate))
    (h : applyConstraintWithRules fuel f cs fid rules = .ok res) :
    res = none ∨
    (∃ upd, res = some (applyLast f (some upd), upd) ∧ upd.id = fid) := by
  unfold applyConstraintWithRules at h
  simp only [Bind.bind, Except.bind] at h
  cases he : addWorkingDays fuel
      (match getAlignmentDay fid rules with
       | some alignmentDay => alignToWeekday cs alignmentDay
       | none => cs)
      (getWorkingDaysBetween f.startAt f.endAt rules) rules with
  | error e => rw [he] at h; cases h
  | ok newEnd =>
      rw [he] at h
      split_ifs at h
      · cases h
        exact Or.inr
          ⟨{ id := fid,
             startAt := match getAlignmentDay fid rules with
               | some alignmentDay => alignToWeekday cs alignmentDay
               | none => cs,
             endAt := newEnd },
           rfl, rfl⟩
      · cases h
        exact Or.inl rfl

theorem processFeatureWithRules_shape (fuel : Nat) (fid : String) (m : FMap)
    (g : String → List GanttDependency) (rules : List SchedulingRule)
    (m' : FMap) (u : Option FeatureUpdate)
    (h : processFeatureWithRules fuel fid m g rules = .ok (m', u)) :
    (u = none ∧ m' = m) ∨
    (∃ f upd, u = some upd ∧ m fid = some f ∧ upd.id = fid ∧
      m' = mapSet m fid (applyLast f (some upd))) := by
  unfold processFeatureWithRules at h
  cases hm : m fid with
  | none =>
      rw [hm] at h
      cases h
      exact Or.inl ⟨rfl, rfl⟩
  | some f =>
      rw [hm] at h
      dsimp only at h
      have hcore : processFeatureWithRulesCore fuel fid f m (g fid) rules =
          .ok (m', u) →
        (u = none ∧ m' = m) ∨
        (∃ f0 upd, u = some upd ∧ m fid = some f0 ∧ upd.id = fid ∧
          m' = mapSet m fid (applyLast f0 (some upd))) := by
        intro hc
        unfold processFeatureWithRulesCore at hc
        split_ifs at hc
        · cases hc
          exact Or.inl ⟨rfl, rfl⟩
        · simp only [Bind.bind, Except.bind] at hc
          cases hgo : findConstraintStartWithRules fuel f (g fid) m rules with
          | error e => rw [hgo] at hc; cases hc
          | ok acc =>
              rw [hgo] at hc
              dsimp only at hc
              cases acc with
              | none =>
                  cases hc
                  exact Or.inl ⟨rfl, rfl⟩
              | some cs =>
                  dsimp only at hc
                  cases ha : applyConstraintWithRules fuel f cs fid rules with
                  | error e => rw [ha] at hc; cases hc
                  | ok res =>
                      rw [ha] at hc
                      dsimp only at hc
                      rcases applyConstraintWithRules_shape fuel f cs fid rules
                          res ha with hres | ⟨upd, hres, hid⟩
                      · rw [hres] at hc
                        cases hc
                        exact Or.inl ⟨rfl, rfl⟩
                      · rw [hres] at hc
                        dsimp only at hc
                        rw [Except.ok.injEq, Prod.mk.injEq] at hc
                        exact Or.inr ⟨f, upd, hc.2.symm, hm, hid, hc.1.symm⟩
      cases hcon : getFeatureConstraint fid rules with
      | none =>
          rw [hcon] at h
          have hres := hcore h
          rwa [hm] at hres
      | some c =>
          rw [hcon] at h
          dsimp only at h
          split_ifs at h
          · cases h
            exact Or.inl ⟨rfl, rfl⟩
          · have hres := hcore h
            rwa [hm] at hres

theorem lastUpdateFor_cons_eq (u : FeatureUpdate) (l : List FeatureUpdate)
    (k : String) (h : u.id = k) :
    lastUpdateFor (u :: l) k =
      match lastUpdateFor l k with
      | some v => some v
      | none => some u := by
  have h2 := lastUpdateFor_append [u] l k
  simp only [List.singleton_append] at h2
  rw [h2]
  have h3 : lastUpdateFor [u] k = some u := by
    unfold lastUpdateFor
    simp [h]
  rw [h3]

/-- What one pass of the recalculation loop does to the features map: the
final map is the initial map with the emitted updates applied per key (each
update fully overwrites both dates, so only the last one per id matters),
and every emitted update's id is a processed id. -/
theorem recalcLoop_spec (useRules : Bool) (fuel : Nat)
    (g : String → List GanttDependency) (er : List SchedulingRule) :
    ∀ (order : List String) (m : FMap) (us : List FeatureUpdate)
      (m' : FMap) (us' : List FeatureUpdate),
      recalcLoop useRules fuel g er order m us = .ok (m', us') →
      ∃ tail, us' = us ++ tail ∧ (∀ u ∈ tail, u.id ∈ order) ∧
        ∀ k, m' k = (m k).map (fun f => applyLast f (lastUpdateFor tail k)) := by
  intro order
  induction order with
  | nil =>
      intro m us m' us' h
      unfold recalcLoop at h
      cases h
      refine ⟨[], (List.append_nil us).symm, ?_, ?_⟩
      · intro u hu
        cases hu
      · intro k
        cases m k <;> rfl
  | cons x rest ih =>
      intro m us m' us' h
      unfold recalcLoop at h
      dsimp only at h
      simp only [Bind.bind, Except.bind] at h
      have hstep : ∀ (m1 : FMap) (u? : Option FeatureUpdate),
          ((u? = none ∧ m1 = m) ∨
           (∃ f upd, u? = some upd ∧ m x = some f ∧ upd.id = x ∧
             m1 = mapSet m x (applyLast f (some upd)))) →
          recalcLoop useRules fuel g er rest m1
            (match u? with | some u => us ++ [u] | none => us) = .ok (m', us') →
          ∃ tail, us' = us ++ tail ∧ (∀ u ∈ tail, u.id ∈ x :: rest) ∧
            ∀ k, m' k = (m k).map (fun f => applyLast f (lastUpdateFor tail k)) := by
        intro m1 u? hshape hrest
        rcases hshape with ⟨hnone, hmm⟩ | ⟨f, upd, hsome, hmf, hid, hmm⟩
        · subst hnone
          subst hmm
          obtain ⟨tail, h1, h2, h3⟩ := ih m1 us m' us' hrest
          exact ⟨tail, h1, fun u hu => List.mem_cons_of_mem _ (h2 u hu), h3⟩
        · subst hsome
          subst hmm
          obtain ⟨tail', h1, h2, h3⟩ := ih _ _ m' us' hrest
          refine ⟨upd :: tail', ?_, ?_, ?_⟩
          · rw [h1, List.append_assoc, List.singleton_append]
          · intro u hu
            rcases List.mem_cons.mp hu with rfl | hu
            · rw [hid]; exact List.mem_cons_self _ _
            · exact List.mem_cons_of_mem _ (h2 u hu)
          · intro k
            rw [h3 k]
            by_cases hk : k = x
            · subst hk
              rw [lastUpdateFor_cons_eq upd tail' k hid]
              unfold mapSet
              rw [if_pos rfl, hmf]
              simp only [Option.map_some']
              rw [applyLast_applyLast]
            · rw [lastUpdateFor_cons_ne upd tail' k (by rw [hid]; exact Ne.symm hk)]
              unfold mapSet
              rw [if_neg hk]
      split_ifs at h
      · cases hp : processFeatureWithRules fuel x m g er with
        | error e => rw [hp] at h; cases h
        | ok pr =>
            rw [hp] at h
            obtain ⟨m1, u?⟩ := pr
            dsimp only at h
            exact hstep m1 u? (processFeatureWithRules_shape fuel x m g er m1 u? hp) h
      · cases hp : processFeatureLegacy x m g with
        | error e => rw [hp] at h; cases h
        | ok pr =>
            rw [hp] at h
            obtain ⟨m1, u?⟩ := pr
            dsimp only at h
            exact hstep m1 u? (processFeatureLegacy_shape x m g m1 u? hp) h

theorem recalcLoop_append (useRules : Bool) (fuel : Nat)
    (g : String → List GanttDependency) (er : List SchedulingRule)
    (P R : List String) :
    ∀ (m : FMap) (us : List FeatureUpdate),
      recalcLoop useRules fuel g er (P ++ R) m us =
        (recalcLoop useRules fuel g er P m us) >>= fun pr =>
          recalcLoop useRules fuel g er R pr.1 pr.2 := by
  induction P with
  | nil =>
      intro m us
      rw [List.nil_append]
      conv_rhs => rw [recalcLoop]
      rfl
  | cons x P' ih =>
      intro m us
      rw [List.cons_append]
      conv_lhs => rw [recalcLoop]
      conv_rhs => rw [recalcLoop]
      dsimp only
      simp only [Bind.bind, Except.bind]
      split_ifs
      · cases processFeatureWithRules fuel x m g er with
        | error e => rfl
        | ok pr =>
            obtain ⟨m1, u?⟩ := pr
            dsimp only
            rw [ih]
            rfl
      · cases processFeatureLegacy x m g with
        | error e => rfl
        | ok pr =>
            obtain ⟨m1, u?⟩ := pr
            dsimp only
            rw [ih]
            rfl

theorem visitAux_nodup (deps : List GanttDependency) (allIds : List String) :
    ∀ (fuel : Nat) (pending visited result : List String),
      result.Nodup → (∀ x ∈ result, x ∈ visited) →
      (visitAux deps allIds fuel pending visited result).Nodup := by
  intro fuel
  induction fuel with
  | zero =>
      intro pending visited result hnd _
      cases pending with
      | nil => exact hnd
      | cons a rest => exact hnd
  | succ fuel ih =>
      intro pending visited result hnd hsub
      cases pending with
      | nil => exact hnd
      | cons id rest =>
          unfold visitAux
          split_ifs with h
          · exact ih rest visited result hnd hsub
          · push_neg at h
            refine ih _ (id :: visited) (result ++ [id]) ?_ ?_
            · rw [List.nodup_append]
              refine ⟨hnd, List.nodup_singleton _, ?_⟩
              intro a ha ha2
              rw [List.mem_singleton.mp ha2] at ha
              exact h.1 (hsub id ha)
            · intro x hx
              rcases List.mem_append.mp hx with hx | hx
              · exact List.mem_cons_of_mem _ (hsub x hx)
              · rw [List.mem_singleton.mp hx]
                exact List.mem_cons_self _ _

theorem topologicalSort_nodup (features : List GanttFeature)
    (deps : List GanttDependency) : (topologicalSort features deps).Nodup := by
  unfold topologicalSort
  exact visitAux_nodup _ _ _ _ [] [] List.nodup_nil (by intro x hx; cases hx)

theorem findConstraintStartGo_mono (dur : Int) (m : FMap) :
    ∀ (l : List GanttDependency) (a : Int) (r : Option Int),
      findConstraintStartGo dur m l (some a) = .ok r →
      ∃ c, r = some c ∧ a ≤ c := by
  intro l
  induction l with
  | nil =>
      intro a r h
      unfold findConstraintStartGo at h
      cases h
      exact ⟨a, rfl, le_refl a⟩
  | cons dep rest ih =>
      intro a r h
      unfold findConstraintStartGo at h
      cases hsrc : m dep.sourceId with
      | none =>
          rw [hsrc] at h
          exact ih a r h
      | some src =>
          rw [hsrc] at h
          dsimp only at h
          simp only [Bind.bind, Except.bind] at h
          cases hg : getConstraintStart src dur dep.type with
          | error e => rw [hg] at h; cases h
          | ok v =>
              rw [hg] at h
              dsimp only at h
              split_ifs at h with hv
              · obtain ⟨c, hc, hvc⟩ := ih v r h
                exact ⟨c, hc, le_trans (le_of_lt hv) hvc⟩
              · exact ih a r h

theorem findConstraintStartGo_ge (dur : Int) (m : FMap) :
    ∀ (l : List GanttDependency) (acc : Option Int) (r : Option Int),
      findConstraintStartGo dur m l acc = .ok r →
      ∀ dep ∈ l, ∀ src, m dep.sourceId = some src →
      ∀ v, getConstraintStart src dur dep.type = .ok v →
      ∃ c, r = some c ∧ v ≤ c := by
  intro l
  induction l with
  | nil =>
      intro acc r _ dep hdep
      cases hdep
  | cons dep0 rest ih =>
      intro acc r h dep hdep src hsrc v hv
      unfold findConstraintStartGo at h
      rcases List.mem_cons.mp hdep with rfl | hmem
      · rw [hsrc] at h
        dsimp only at h
        simp only [Bind.bind, Except.bind] at h
        rw [hv] at h
        dsimp only at h
        cases acc with
        | none =>
            dsimp only at h
            obtain ⟨c, hc, hvc⟩ := findConstraintStartGo_mono dur m rest v r h
            exact ⟨c, hc, hvc⟩
        | some a =>
            dsimp only at h
            split_ifs at h with hva
            · obtain ⟨c, hc, hvc⟩ := findConstraintStartGo_mono dur m rest v r h
              exact ⟨c, hc, hvc⟩
            · obtain ⟨c, hc, hac⟩ := findConstraintStartGo_mono dur m rest a r h
              exact ⟨c, hc, le_trans (not_lt.mp hva) hac⟩
      · cases hsrc0 : m dep0.sourceId with
        | none =>
            rw [hsrc0] at h
            exact ih acc r h dep hmem src hsrc v hv
        | some src0 =>
            rw [hsrc0] at h
            dsimp only at h
            simp only [Bind.bind, Except.bind] at h
            cases hg0 : getConstraintStart src0 dur dep0.type with
            | error e => rw [hg0] at h; cases h
            | ok v0 =>
                rw [hg0] at h
                dsimp only at h
                exact ih _ r h dep hmem src hsrc v hv

theorem processFeatureLegacy_start (fid : String) (m : FMap)
    (g : String → List GanttDependency) (m' : FMap) (u : Option FeatureUpdate)
    (f : GanttFeature) (hf : m fid = some f) (hne : ¬((g fid).length = 0))
    (c : Int) (hc : findConstraintStart f (g fid) m = .ok (some c))
    (h : processFeatureLegacy fid m g = .ok (m', u)) :
    ∃ f', m' fid = some f' ∧ f'.startAt = c ∧
      f'.endAt - f'.startAt = f.endAt - f.startAt := by
  unfold processFeatureLegacy at h
  rw [hf] at h
  dsimp only at h
  rw [if_neg hne] at h
  simp only [Bind.bind, Except.bind] at h
  rw [hc] at h
  dsimp only at h
  unfold applyConstraint at h
  dsimp only at h
  split_ifs at h with hstart
  · dsimp only at h
    rw [Except.ok.injEq, Prod.mk.injEq] at h
    refine ⟨⟨f.id, f.name, c, addDays c (differenceInDays f.endAt f.startAt),
      f.owner, f.group⟩, ?_, rfl, ?_⟩
    · rw [← h.1]
      unfold mapSet
      rw [if_pos rfl]
    · simp only [addDays, differenceInDays]
      ring
  · dsimp only at h
    rw [Except.ok.injEq, Prod.mk.injEq] at h
    refine ⟨f, ?_, ?_, rfl⟩
    · rw [← h.1]
      exact hf
    · exact not_not.mp hstart

theorem mem_id_unique (features : List GanttFeature)
    (hnd : (features.map (fun f => f.id)).Nodup) (f1 f2 : GanttFeature)
    (h1 : f1 ∈ features) (h2 : f2 ∈ features) (hid : f1.id = f2.id) : f1 = f2 := by
  induction features with
  | nil => cases h1
  | cons a rest ih =>
      rw [List.map_cons, List.nodup_cons] at hnd
      rcases List.mem_cons.mp h1 with rfl | hm1 <;>
        rcases List.mem_cons.mp h2 with rfl | hm2
      · rfl
      · exact absurd (hid ▸ List.mem_map_of_mem (fun f => f.id) hm2) hnd.1
      · exact absurd (hid ▸ List.mem_map_of_mem (fun f => f.id) hm1) hnd.1
      · exact ih hnd.2 hm1 hm2

theorem recalculateSchedule_eq_loop (fuel : Nat) (features : List GanttFeature)
    (deps : List GanttDependency) (rules : List SchedulingRule)
    (h : rules.filter (fun r => r.enabled) = []) :
    recalculateSchedule fuel features deps rules =
      (recalcLoop false fuel (buildReverseDependencyGraph deps) []
        (topologicalSort features deps) (buildFeaturesMap features) []) >>=
        fun pr => .ok pr.2 := by
  unfold recalculateSchedule
  rw [h]
  rfl

/-- Claim C2, amended: for an FS dependency s→t whose source id occurs
before its target id in the DFS preorder computed by `topologicalSort`,
after a successful recalculation with no enabled rules and after applying
all returned updates, the target starts no earlier than the source ends, and
the target's calendar duration is preserved. -/
theorem claim_C2_amended (fuel : Nat) (features : List GanttFeature)
    (deps : List GanttDependency) (rules : List SchedulingRule)
    (dep : GanttDependency) (sF tF : GanttFeature)
    (hnd : (features.map (fun f => f.id)).Nodup)
    (hrules : rules.filter (fun r => r.enabled) = [])
    (hdep : dep ∈ deps) (hty : dep.type = "FS")
    (hsF : sF ∈ features) (hsid : sF.id = dep.sourceId)
    (htF : tF ∈ features) (htid : tF.id = dep.targetId)
    (horder : ∃ P R, topologicalSort features deps = P ++ dep.targetId :: R ∧
      dep.sourceId ∈ P)
    (us : List FeatureUpdate)
    (hok : recalculateSchedule fuel features deps rules = .ok us) :
    ∀ t' ∈ applyUpdates features us, t'.id = dep.targetId →
    ∀ s' ∈ applyUpdates features us, s'.id = dep.sourceId →
      s'.endAt ≤ t'.startAt ∧
      differenceInDays t'.endAt t'.startAt = differenceInDays tF.endAt tF.startAt := by
  intro t' ht' htid' s' hs' hsid'
  obtain ⟨P, R, hPR, hsP⟩ := horder
  rw [recalculateSchedule_eq_loop fuel features deps rules hrules] at hok
  simp only [Bind.bind, Except.bind] at hok
  cases hl : recalcLoop false fuel (buildReverseDependencyGraph deps) []
      (topologicalSort features deps) (buildFeaturesMap features) [] with
  | error e => rw [hl] at hok; cases hok
  | ok prAll =>
      rw [hl] at hok
      obtain ⟨mf, usAll⟩ := prAll
      dsimp only at hok
      cases hok
      -- nodup facts about the order
      have hndo := topologicalSort_nodup features deps
      rw [hPR] at hndo
      have hdis := List.disjoint_of_nodup_append hndo
      have htP : dep.targetId ∉ P := fun hmem => hdis hmem (List.mem_cons_self _ _)
      have hndTR := (List.nodup_append.mp hndo).2.1
      have htR : dep.targetId ∉ R := (List.nodup_cons.mp hndTR).1
      have hsTR : dep.sourceId ∉ dep.targetId :: R := fun hmem => hdis hsP hmem
      have hst : dep.sourceId ≠ dep.targetId := fun he =>
        hsTR (by rw [he]; exact List.mem_cons_self _ _)
      have hsR : dep.sourceId ∉ R := fun hmem =>
        hsTR (List.mem_cons_of_mem _ hmem)
      -- whole-run spec
      obtain ⟨us, hus, _, hmapsAll⟩ :=
        recalcLoop_spec false fuel (buildReverseDependencyGraph deps) []
          (topologicalSort features deps) (buildFeaturesMap features) [] mf us hl
      rw [List.nil_append] at hus
      subst hus
      -- decompose the run at the target's position
      rw [hPR, recalcLoop_append false fuel (buildReverseDependencyGraph deps) []
        P (dep.targetId :: R)] at hl
      simp only [Bind.bind, Except.bind] at hl
      cases hP : recalcLoop false fuel (buildReverseDependencyGraph deps) [] P
          (buildFeaturesMap features) [] with
      | error e => rw [hP] at hl; cases hl
      | ok prP =>
          rw [hP] at hl
          obtain ⟨mP, usP⟩ := prP
          dsimp only at hl
          unfold recalcLoop at hl
          simp only [reduceIte] at hl
          simp only [Bind.bind, Except.bind] at hl
          cases hstep : processFeatureLegacy dep.targetId mP
              (buildReverseDependencyGraph deps) with
          | error e => rw [hstep] at hl; cases hl
          | ok prStep =>
              rw [hstep] at hl
              obtain ⟨m2, u2⟩ := prStep
              dsimp only at hl
              -- prefix spec
              obtain ⟨usP, husP, hidsP, hmapsP⟩ :=
                recalcLoop_spec false fuel (buildReverseDependencyGraph deps) []
                  P (buildFeaturesMap features) [] mP usP hP
              rw [List.nil_append] at husP
              subst husP
              -- suffix spec
              obtain ⟨usR, _, hidsR, hmapsR⟩ :=
                recalcLoop_spec false fuel (buildReverseDependencyGraph deps) []
                  R m2 _ mf us hl
              -- initial map values
              have hm0t : buildFeaturesMap features dep.targetId = some tF := by
                rw [← htid]
                exact buildFeaturesMap_mem features hnd tF htF
              have hm0s : buildFeaturesMap features dep.sourceId = some sF := by
                rw [← hsid]
                exact buildFeaturesMap_mem features hnd sF hsF
              -- target untouched before its own step
              have hLPt : lastUpdateFor usP dep.targetId = none :=
                lastUpdateFor_none _ _ (fun u hu he => htP (he ▸ hidsP u hu))
              have hmPt : mP dep.targetId = some tF := by
                rw [hmapsP dep.targetId, hm0t, hLPt]
                rfl
              -- source value at the target's step
              have hmPs : mP dep.sourceId =
                  some (applyLast sF (lastUpdateFor usP dep.sourceId)) := by
                rw [hmapsP dep.sourceId, hm0s]
                rfl
              -- the edge is among the target's incoming edges
              have hdepIn : dep ∈ buildReverseDependencyGraph deps dep.targetId := by
                unfold buildReverseDependencyGraph
                exact List.mem_filter.mpr ⟨hdep, by simp⟩
              have hlen : ¬((buildReverseDependencyGraph deps dep.targetId).length = 0) := by
                intro h0
                rw [List.length_eq_zero] at h0
                rw [h0] at hdepIn
                cases hdepIn
              -- the constraint search succeeded
              have hfind : ∃ r, findConstraintStart tF
                  (buildReverseDependencyGraph deps dep.targetId) mP = .ok r := by
                have hcopy := hstep
                unfold processFeatureLegacy at hcopy
                rw [hmPt] at hcopy
                dsimp only at hcopy
                rw [if_neg hlen] at hcopy
                simp only [Bind.bind, Except.bind] at hcopy
                cases hfo : findConstraintStart tF
                    (buildReverseDependencyGraph deps dep.targetId) mP with
                | error e => rw [hfo] at hcopy; cases hcopy
                | ok r => exact ⟨r, rfl⟩
              obtain ⟨r, hr⟩ := hfind
              -- the FS candidate from this edge
              have hgcs : getConstraintStart
                  (applyLast sF (lastUpdateFor usP dep.sourceId))
                  (differenceInDays tF.endAt tF.startAt) dep.type =
                  .ok ((applyLast sF (lastUpdateFor usP dep.sourceId)).endAt) := by
                rw [hty]
                rfl
              have hge := findConstraintStartGo_ge
                (differenceInDays tF.endAt tF.startAt) mP
                (buildReverseDependencyGraph deps dep.targetId) none r
                (by unfold findConstraintStart at hr; exact hr)
                dep hdepIn _ hmPs _ hgcs
              obtain ⟨c, hrc, hvc⟩ := hge
              rw [hrc] at hr
              -- the target's step pins its start to the maximum candidate
              obtain ⟨f', hm2t, hf'start, hf'dur⟩ :=
                processFeatureLegacy_start dep.targetId mP
                  (buildReverseDependencyGraph deps) m2 u2 tF hmPt hlen c hr hstep
              -- final values
              have hLRt : lastUpdateFor usR dep.targetId = none :=
                lastUpdateFor_none _ _ (fun u hu he => htR (he ▸ hidsR u hu))
              have hmft : mf dep.targetId = some f' := by
                rw [hmapsR dep.targetId, hm2t, hLRt]
                rfl
              have hm2s : m2 dep.sourceId =
                  some (applyLast sF (lastUpdateFor usP dep.sourceId)) := by
                rcases processFeatureLegacy_shape dep.targetId mP
                    (buildReverseDependencyGraph deps) m2 u2 hstep with
                  ⟨_, hmm⟩ | ⟨f0, upd, _, _, _, hmm⟩
                · rw [hmm]
                  exact hmPs
                · rw [hmm]
                  unfold mapSet
                  rw [if_neg hst]
                  exact hmPs
              have hLRs : lastUpdateFor usR dep.sourceId = none :=
                lastUpdateFor_none _ _ (fun u hu he => hsR (he ▸ hidsR u hu))
              have hmfs : mf dep.sourceId =
                  some (applyLast sF (lastUpdateFor usP dep.sourceId)) := by
                rw [hmapsR dep.sourceId, hm2s, hLRs]
                rfl
              -- identify final values through the whole-run spec
              have hmft2 : mf dep.targetId =
                  some (applyLast tF (lastUpdateFor us dep.targetId)) := by
                rw [hmapsAll dep.targetId, hm0t]
                rfl
              have htEq : applyLast tF (lastUpdateFor us dep.targetId) = f' :=
                Option.some_inj.mp (hmft2.symm.trans hmft)
              have hmfs2 : mf dep.sourceId =
                  some (applyLast sF (lastUpdateFor us dep.sourceId)) := by
                rw [hmapsAll dep.sourceId, hm0s]
                rfl
              have hsEq : applyLast sF (lastUpdateFor us dep.sourceId) =
                  applyLast sF (lastUpdateFor usP dep.sourceId) :=
                Option.some_inj.mp (hmfs2.symm.trans hmfs)
              -- identify t' and s' among the applied features
              rw [applyUpdates_eq_map] at ht' hs'
              obtain ⟨ft0, hft0, hft'⟩ := List.mem_map.mp ht'
              obtain ⟨fs0, hfs0, hfs'⟩ := List.mem_map.mp hs'
              have hft0id : ft0.id = tF.id := by
                rw [htid]
                rw [← hft'] at htid'
                rw [← htid']
                exact (applyLast_id ft0 _).symm
              have hfs0id : fs0.id = sF.id := by
                rw [hsid]
                rw [← hfs'] at hsid'
                rw [← hsid']
                exact (applyLast_id fs0 _).symm
              have hft0 : ft0 = tF := mem_id_unique features hnd ft0 tF hft0 htF hft0id
              have hfs0 : fs0 = sF := mem_id_unique features hnd fs0 sF hfs0 hsF hfs0id
              rw [hft0] at hft'
              rw [hfs0] at hfs'
              rw [htid] at hft'
              rw [hsid] at hfs'
              rw [← hft', htEq, ← hfs', hsEq]
              constructor
              · rw [hf'start]
                exact hvc
              · unfold differenceInDays
                exact hf'dur

/-- Witness for the amended C2 on the two-feature FS chain A→B, where the
order is A before B. -/
theorem claim_C2_amended_witness :
    recalculateSchedule 0 [mkFeature "A" 1 5, mkFeature "B" 10 12]
      [mkDep "dAB" "A" "B" "FS"] [] =
      .ok [{ id := "B", startAt := 5, endAt := 7 }] ∧
    (∀ t' ∈ applyUpdates [mkFeature "A" 1 5, mkFeature "B" 10 12]
        [{ id := "B", startAt := 5, endAt := 7 }],
      t'.id = (mkDep "dAB" "A" "B" "FS").targetId →
      ∀ s' ∈ applyUpdates [mkFeature "A" 1 5, mkFeature "B" 10 12]
        [{ id := "B", startAt := 5, endAt := 7 }],
      s'.id = (mkDep "dAB" "A" "B" "FS").sourceId →
      s'.endAt ≤ t'.startAt ∧
      differenceInDays t'.endAt t'.startAt =
        differenceInDays (mkFeature "B" 10 12).endAt (mkFeature "B" 10 12).startAt) :=
  ⟨by decide,
   claim_C2_amended 0 [mkFeature "A" 1 5, mkFeature "B" 10 12]
     [mkDep "dAB" "A" "B" "FS"] [] (mkDep "dAB" "A" "B" "FS")
     (mkFeature "A" 1 5) (mkFeature "B" 10 12)
     (by decide) rfl (by decide) rfl (by decide) rfl (by decide) rfl
     ⟨["A"], [], by decide, by decide⟩
     [{ id := "B", startAt := 5, endAt := 7 }] (by decide)⟩

theorem countWorkingDays_of_le (a b : Int) (rules : List SchedulingRule)
    (h : b ≤ a) : countWorkingDays a b rules = 0 := by
  unfold countWorkingDays
  rw [show (b - a).toNat = 0 from by omega]
  rfl

theorem countWorkingDays_step (a b : Int) (rules : List SchedulingRule)
    (h : a < b) :
    countWorkingDays a b rules =
      (if isNonWorkingDay a rules then 0 else 1) +
        countWorkingDays (addDays a 1) b rules := by
  unfold countWorkingDays
  obtain ⟨n, hn⟩ : ∃ n, (b - a).toNat = n + 1 := ⟨(b - a).toNat - 1, by omega⟩
  have hn2 : (b - addDays a 1).toNat = n := by
    unfold addDays
    omega
  rw [hn, hn2]
  rfl

theorem countWorkingDays_nonneg (a b : Int) (rules : List SchedulingRule) :
    0 ≤ countWorkingDays a b rules := by
  unfold countWorkingDays
  generalize (b - a).toNat = n
  induction n generalizing a with
  | zero => exact le_refl 0
  | succ n ih =>
      unfold countWorkingDaysGo
      have := ih (addDays a 1)
      split_ifs <;> omega

theorem countWorkingDays_split (a b c : Int) (rules : List SchedulingRule)
    (hab : a ≤ b) (hbc : b ≤ c) :
    countWorkingDays a c rules =
      countWorkingDays a b rules + countWorkingDays b c rules := by
  obtain ⟨n, hn⟩ : ∃ n, (b - a).toNat = n := ⟨(b - a).toNat, rfl⟩
  induction n generalizing a with
  | zero =>
      have hba : a = b := by omega
      subst hba
      rw [countWorkingDays_of_le a a rules (le_refl a)]
      omega
  | succ n ih =>
      have hlt : a < b := by omega
      have hac : a < c := lt_of_lt_of_le hlt hbc
      rw [countWorkingDays_step a c rules hac, countWorkingDays_step a b rules hlt]
      have h1 : addDays a 1 ≤ b := by unfold addDays; omega
      have h2 : (b - addDays a 1).toNat = n := by unfold addDays; omega
      rw [ih (addDays a 1) h1 h2]
      omega

theorem skipNonWorkingForward_spec (rules : List SchedulingRule) :
    ∀ (fuel : Nat) (d d0 : Int),
      skipNonWorkingForward fuel d rules = .ok d0 →
      d ≤ d0 ∧ countWorkingDays d d0 rules = 0 ∧
        isNonWorkingDay d0 rules = false := by
  intro fuel
  induction fuel with
  | zero =>
      intro d d0 h
      unfold skipNonWorkingForward at h
      by_cases hnw : isNonWorkingDay d rules
      · rw [if_pos hnw] at h
        exact Except.noConfusion h
      · rw [if_neg hnw] at h
        obtain rfl := Except.ok.inj h
        exact ⟨le_refl d, countWorkingDays_of_le d d rules (le_refl d), by
          simpa using hnw⟩
  | succ fuel ih =>
      intro d d0 h
      unfold skipNonWorkingForward at h
      by_cases hnw : isNonWorkingDay d rules
      · rw [if_pos hnw] at h
        obtain ⟨h1, h2, h3⟩ := ih (addDays d 1) d0 h
        have hd1 : d < d0 := by
          unfold addDays at h1
          omega
        refine ⟨le_of_lt hd1, ?_, h3⟩
        rw [countWorkingDays_step d d0 rules hd1]
        rw [if_pos hnw, h2]
        omega
      · rw [if_neg hnw] at h
        obtain rfl := Except.ok.inj h
        exact ⟨le_refl d, countWorkingDays_of_le d d rules (le_refl d), by
          simpa using hnw⟩

theorem addWorkingDaysGo_spec (rules : List SchedulingRule) (w : Int) :
    ∀ (fuel : Nat) (cur : Int) (acc : Int) (e : Int),
      addWorkingDaysGo fuel cur acc w rules = .ok e → acc ≤ w →
      (acc = w → e = cur) ∧
      (acc < w → cur < e ∧ isNonWorkingDay e rules = false ∧
        countWorkingDays (addDays cur 1) (addDays e 1) rules = w - acc) := by
  intro fuel
  induction fuel with
  | zero =>
      intro cur acc e h hle
      unfold addWorkingDaysGo at h
      by_cases hlt : acc < w
      · rw [if_pos hlt] at h
        exact Except.noConfusion h
      · rw [if_neg hlt] at h
        obtain rfl := Except.ok.inj h
        exact ⟨fun _ => rfl, fun hlt2 => absurd hlt2 hlt⟩
  | succ fuel ih =>
      intro cur acc e h hle
      unfold addWorkingDaysGo at h
      by_cases hlt : acc < w
      · rw [if_pos hlt] at h
        dsimp only at h
        refine ⟨fun he => absurd hlt (by omega), fun _ => ?_⟩
        by_cases hnw : isNonWorkingDay (addDays cur 1) rules
        · rw [if_pos hnw] at h
          obtain ⟨h1, h2⟩ := ih (addDays cur 1) acc e h hle
          obtain ⟨h2a, h2b, h2c⟩ := h2 hlt
          have hce : cur < e := by
            unfold addDays at h2a
            omega
          refine ⟨hce, h2b, ?_⟩
          rw [countWorkingDays_step (addDays cur 1) (addDays e 1) rules
            (by unfold addDays at h2a ⊢; omega)]
          rw [if_pos hnw, h2c]
          omega
        · rw [if_neg hnw] at h
          have hle2 : acc + 1 ≤ w := by omega
          obtain ⟨h1, h2⟩ := ih (addDays cur 1) (acc + 1) e h hle2
          by_cases heq : acc + 1 = w
          · have he : e = addDays cur 1 := h1 heq
            subst he
            refine ⟨by unfold addDays; omega, by simpa using hnw, ?_⟩
            rw [countWorkingDays_step (addDays cur 1) (addDays (addDays cur 1) 1) rules
              (by unfold addDays; omega)]
            rw [if_neg hnw]
            rw [countWorkingDays_of_le (addDays (addDays cur 1) 1)
              (addDays (addDays cur 1) 1) rules (le_refl _)]
            omega
          · have hlt2 : acc + 1 < w := by omega
            obtain ⟨h2a, h2b, h2c⟩ := h2 hlt2
            have hce : cur < e := by
              unfold addDays at h2a
              omega
            refine ⟨hce, h2b, ?_⟩
            rw [countWorkingDays_step (addDays cur 1) (addDays e 1) rules
              (by unfold addDays at h2a ⊢; omega)]
            rw [if_neg hnw, h2c]
            omega
      · rw [if_neg hlt] at h
        obtain rfl := Except.ok.inj h
        exact ⟨fun _ => rfl, fun hlt2 => absurd hlt2 hlt⟩

/-- Round trip: adding `w ≥ 0` working days onto a date and recounting the
working days of the resulting span gives back `w`. -/
theorem getWorkingDaysBetween_addWorkingDays (fuel : Nat) (a w e : Int)
    (rules : List SchedulingRule) (hw : 0 ≤ w)
    (h : addWorkingDays fuel a w rules = .ok e) :
    getWorkingDaysBetween a e rules = w := by
  unfold addWorkingDays at h
  unfold getWorkingDaysBetween
  by_cases hTO : hasTimeOffRules rules
  · rw [if_neg (by simpa using hTO)] at h ⊢
    simp only [Bind.bind, Except.bind] at h
    cases hskip : skipNonWorkingForward fuel a rules with
    | error e2 => rw [hskip] at h; cases h
    | ok d0 =>
        rw [hskip] at h
        obtain ⟨hs1, hs2, hs3⟩ := skipNonWorkingForward_spec rules fuel a d0 hskip
        obtain ⟨hg1, hg2⟩ := addWorkingDaysGo_spec rules w fuel d0 0 e h hw
        by_cases hw0 : w = 0
        · subst hw0
          have he : e = d0 := hg1 rfl
          subst he
          rw [hs2]
        · have hwpos : 0 < w := lt_of_le_of_ne hw (Ne.symm hw0)
          obtain ⟨hg2a, hg2b, hg2c⟩ := hg2 hwpos
          rw [countWorkingDays_split a d0 e rules hs1 (le_of_lt hg2a), hs2]
          have hstep := countWorkingDays_step d0 e rules hg2a
          rw [hstep, if_neg (by simp [hs3])]
          have h1 : countWorkingDays (addDays d0 1) e rules +
              countWorkingDays e (addDays e 1) rules = w := by
            rw [← countWorkingDays_split (addDays d0 1) e (addDays e 1) rules
              (by unfold addDays; omega) (by unfold addDays; omega)]
            have : countWorkingDays (addDays d0 1) (addDays e 1) rules = w - 0 := hg2c
            simpa using this
          have h2 : countWorkingDays e (addDays e 1) rules = 1 := by
            rw [countWorkingDays_step e (addDays e 1) rules (by unfold addDays; omega)]
            rw [if_neg (by simp [hg2b])]
            rw [countWorkingDays_of_le (addDays e 1) (addDays e 1) rules (le_refl _)]
            omega
          omega
  · rw [if_pos (by simpa using hTO)] at h ⊢
    cases h
    unfold differenceInDays addDays
    omega

theorem getWorkingDaysBetween_addWorkingDays_self (fuel : Nat) (s t a e : Int)
    (rules : List SchedulingRule)
    (h : addWorkingDays fuel a (getWorkingDaysBetween s t rules) rules = .ok e) :
    getWorkingDaysBetween a e rules = getWorkingDaysBetween s t rules := by
  obtain ⟨w, hw⟩ : ∃ w, getWorkingDaysBetween s t rules = w := ⟨_, rfl⟩
  rw [hw] at h ⊢
  by_cases hTO : hasTimeOffRules rules
  · refine getWorkingDaysBetween_addWorkingDays fuel a w e rules ?_ h
    rw [← hw]
    unfold getWorkingDaysBetween
    rw [if_neg (by simpa using hTO)]
    exact countWorkingDays_nonneg s t rules
  · unfold addWorkingDays at h
    rw [if_pos (by simpa using hTO)] at h
    have he := Except.ok.inj h
    unfold getWorkingDaysBetween
    rw [if_pos (by simpa using hTO)]
    unfold addDays at he
    unfold differenceInDays
    omega

/-- The constraint-candidate loop reads the features map only at the source
ids of the listed dependencies. -/
theorem findConstraintStartWithRulesGo_congr (fuel : Nat) (w : Int)
    (er : List SchedulingRule) :
    ∀ (l : List GanttDependency) (acc : Option Int) (m m' : FMap),
      (∀ d ∈ l, m' d.sourceId = m d.sourceId) →
      findConstraintStartWithRulesGo fuel w m' er l acc =
        findConstraintStartWithRulesGo fuel w m er l acc := by
  intro l
  induction l with
  | nil => intro acc m m' _; rfl
  | cons dep rest ih =>
      intro acc m m' h
      have hhead : m' dep.sourceId = m dep.sourceId := h dep (List.mem_cons_self dep rest)
      have htail : ∀ d ∈ rest, m' d.sourceId = m d.sourceId :=
        fun d hd => h d (List.mem_cons_of_mem dep hd)
      unfold findConstraintStartWithRulesGo
      rw [hhead]
      cases hm : m dep.sourceId with
      | none => exact ih acc m m' htail
      | some source =>
          dsimp only
          simp only [Bind.bind, Except.bind]
          cases hbase : getConstraintStartWithRules fuel source w dep.type er
              dep.sourceId dep.targetId with
          | error err => rfl
          | ok base =>
              dsimp only
              by_cases hlag : getLagDays dep.sourceId dep.targetId er ≠ 0
              · simp only [if_pos hlag]
                cases hmin : addWorkingDays fuel base
                    (getLagDays dep.sourceId dep.targetId er) er with
                | error err => rfl
                | ok minStart => exact ih _ m m' htail
              · simp only [if_neg hlag]
                exact ih _ m m' htail

/-- The legacy constraint-candidate loop reads the features map only at the
source ids of the listed dependencies. -/
theorem findConstraintStartGo_congr (dur : Int) :
    ∀ (l : List GanttDependency) (acc : Option Int) (m m' : FMap),
      (∀ d ∈ l, m' d.sourceId = m d.sourceId) →
      findConstraintStartGo dur m' l acc = findConstraintStartGo dur m l acc := by
  intro l
  induction l with
  | nil => intro acc m m' _; rfl
  | cons dep rest ih =>
      intro acc m m' h
      have hhead : m' dep.sourceId = m dep.sourceId := h dep (List.mem_cons_self dep rest)
      have htail : ∀ d ∈ rest, m' d.sourceId = m d.sourceId :=
        fun d hd => h d (List.mem_cons_of_mem dep hd)
      unfold findConstraintStartGo
      rw [hhead]
      cases hm : m dep.sourceId with
      | none => exact ih acc m m' htail
      | some source =>
          dsimp only
          simp only [Bind.bind, Except.bind]
          cases hbase : getConstraintStart source dur dep.type with
          | error err => rfl
          | ok base => exact ih _ m m' htail

/-- Re-applying a constraint to the feature it just produced is a no-op: the
start already sits on the aligned day and the recounted working-day span is
unchanged, so the `startAt !== alignedStart` guard fails. -/
theorem applyConstraintWithRules_after (fuel : Nat) (f : GanttFeature) (cs : Int)
    (x : String) (er : List SchedulingRule) (f2 : GanttFeature)
    (upd : FeatureUpdate)
    (h : applyConstraintWithRules fuel f cs x er = .ok (some (f2, upd))) :
    applyConstraintWithRules fuel f2 cs x er = .ok none ∧
    getWorkingDaysBetween f2.startAt f2.endAt er =
      getWorkingDaysBetween f.startAt f.endAt er := by
  unfold applyConstraintWithRules at h ⊢
  simp only [Bind.bind, Except.bind] at h ⊢
  cases he : addWorkingDays fuel
      (match getAlignmentDay x er with
       | some alignmentDay => alignToWeekday cs alignmentDay
       | none => cs)
      (getWorkingDaysBetween f.startAt f.endAt er) er with
  | error err => rw [he] at h; cases h
  | ok newEnd =>
      rw [he] at h
      split_ifs at h with hne
      · rw [Except.ok.injEq, Option.some.injEq, Prod.mk.injEq] at h
        obtain ⟨hf2, hupd⟩ := h
        have hw2 : getWorkingDaysBetween f2.startAt f2.endAt er
            = getWorkingDaysBetween f.startAt f.endAt er := by
          rw [← hf2]
          exact getWorkingDaysBetween_addWorkingDays_self fuel f.startAt f.endAt
            _ newEnd er he
        have hstart : f2.startAt = (match getAlignmentDay x er with
            | some alignmentDay => alignToWeekday cs alignmentDay
            | none => cs) := by
          rw [← hf2]
        refine ⟨?_, hw2⟩
        rw [hw2, he]
        dsimp only
        rw [if_neg (by rw [hstart]; exact fun hh => hh rfl)]
      · cases h

/-- Legacy analogue: re-applying a constraint to the feature it produced is a
no-op, and the calendar duration is preserved. -/
theorem applyConstraint_after (f : GanttFeature) (cs : Int) (x : String)
    (f2 : GanttFeature) (upd : FeatureUpdate)
    (h : applyConstraint f cs x = some (f2, upd)) :
    applyConstraint f2 cs x = none ∧
    differenceInDays f2.endAt f2.startAt = differenceInDays f.endAt f.startAt := by
  unfold applyConstraint at h ⊢
  dsimp only at h ⊢
  split_ifs at h with hne
  · rw [Option.some.injEq, Prod.mk.injEq] at h
    obtain ⟨hf2, hupd⟩ := h
    have hstart : f2.startAt = cs := by rw [← hf2]
    have hdur : differenceInDays f2.endAt f2.startAt
        = differenceInDays f.endAt f.startAt := by
      rw [← hf2]
      unfold differenceInDays addDays
      dsimp only
      omega
    refine ⟨?_, hdur⟩
    rw [if_neg (by rw [hstart]; exact fun hh => hh rfl)]

/-- One with-rules step is a no-op when re-run on its own output: if the
first run processed `x` from `m1` and the final map `mf` agrees with `m1` on
all of `x`'s sources and holds `x`'s post-step value, then processing `x`
from `mf` changes nothing and emits no update. -/
theorem processFeatureWithRulesCore_fixedPoint (fuel : Nat) (x : String)
    (er : List SchedulingRule) (incoming : List GanttDependency)
    (f : GanttFeature) (m1 m2 mf : FMap) (u : Option FeatureUpdate)
    (hstep : processFeatureWithRulesCore fuel x f m1 incoming er = .ok (m2, u))
    (hsrc : ∀ d ∈ incoming, mf d.sourceId = m1 d.sourceId)
    (hx : mf x = m2 x) (hm1x : m1 x = some f) :
    ∃ f', mf x = some f' ∧
      processFeatureWithRulesCore fuel x f' mf incoming er = .ok (mf, none) := by
  unfold processFeatureWithRulesCore at hstep ⊢
  by_cases hinc : incoming.length = 0
  · rw [if_pos hinc] at hstep
    cases hstep
    exact ⟨f, by rw [hx, hm1x], by rw [if_pos hinc]⟩
  · rw [if_neg hinc] at hstep
    simp only [Bind.bind, Except.bind] at hstep
    cases hfind : findConstraintStartWithRules fuel f incoming m1 er with
    | error err => rw [hfind] at hstep; cases hstep
    | ok acc =>
        rw [hfind] at hstep
        dsimp only at hstep
        cases acc with
        | none =>
            cases hstep
            refine ⟨f, by rw [hx, hm1x], ?_⟩
            rw [if_neg hinc]
            simp only [Bind.bind, Except.bind]
            rw [show findConstraintStartWithRules fuel f incoming mf er
                = findConstraintStartWithRules fuel f incoming m1 er from by
              unfold findConstraintStartWithRules
              exact findConstraintStartWithRulesGo_congr fuel _ er incoming none m1 mf hsrc]
            rw [hfind]
        | some cs =>
            dsimp only at hstep
            cases hac : applyConstraintWithRules fuel f cs x er with
            | error err => rw [hac] at hstep; cases hstep
            | ok res =>
                rw [hac] at hstep
                dsimp only at hstep
                cases res with
                | none =>
                    cases hstep
                    refine ⟨f, by rw [hx, hm1x], ?_⟩
                    rw [if_neg hinc]
                    simp only [Bind.bind, Except.bind]
                    rw [show findConstraintStartWithRules fuel f incoming mf er
                        = findConstraintStartWithRules fuel f incoming m1 er from by
                      unfold findConstraintStartWithRules
                      exact findConstraintStartWithRulesGo_congr fuel _ er incoming none m1 mf hsrc]
                    rw [hfind]
                    dsimp only
                    rw [hac]
                | some pr =>
                    obtain ⟨f2, upd⟩ := pr
                    dsimp only at hstep
                    cases hstep
                    obtain ⟨hacn, hw2⟩ :=
                      applyConstraintWithRules_after fuel f cs x er f2 upd hac
                    have hmfx : mf x = some f2 := by
                      rw [hx]
                      unfold mapSet
                      rw [if_pos rfl]
                    refine ⟨f2, hmfx, ?_⟩
                    rw [if_neg hinc]
                    simp only [Bind.bind, Except.bind]
                    rw [show findConstraintStartWithRules fuel f2 incoming mf er
                        = findConstraintStartWithRules fuel f incoming m1 er from by
                      unfold findConstraintStartWithRules
                      rw [hw2]
                      exact findConstraintStartWithRulesGo_congr fuel _ er incoming none m1 mf hsrc]
                    rw [hfind]
                    dsimp only
                    rw [hacn]

/-- Wrapper of the previous fixed-point fact over the constraint-skip check
of `processFeatureWithRules`. -/
theorem processFeatureWithRules_fixedPoint (fuel : Nat) (x : String)
    (g : String → List GanttDependency) (er : List SchedulingRule)
    (m1 m2 mf : FMap) (u : Option FeatureUpdate)
    (hstep : processFeatureWithRules fuel x m1 g er = .ok (m2, u))
    (hsrc : ∀ d ∈ g x, mf d.sourceId = m1 d.sourceId)
    (hx : mf x = m2 x) :
    processFeatureWithRules fuel x mf g er = .ok (mf, none) := by
  unfold processFeatureWithRules at hstep ⊢
  cases hm1 : m1 x with
  | none =>
      rw [hm1] at hstep
      cases hstep
      rw [hx, hm1]
  | some f =>
      rw [hm1] at hstep
      dsimp only at hstep
      cases hcon : getFeatureConstraint x er with
      | some c =>
          rw [hcon] at hstep
          dsimp only at hstep
          by_cases hfx : c.constraintType = some "fixed_both" ∨
              c.constraintType = some "fixed_start" ∨
              c.constraintType = some "fixed_end"
          · rw [if_pos hfx] at hstep
            cases hstep
            rw [hx, hm1]
            dsimp only
            rw [if_pos hfx]
          · rw [if_neg hfx] at hstep
            obtain ⟨f', hmfx, hcore⟩ := processFeatureWithRulesCore_fixedPoint
              fuel x er (g x) f m1 m2 mf u hstep hsrc hx hm1
            rw [hmfx]
            dsimp only
            rw [if_neg hfx]
            exact hcore
      | none =>
          rw [hcon] at hstep
          obtain ⟨f', hmfx, hcore⟩ := processFeatureWithRulesCore_fixedPoint
            fuel x er (g x) f m1 m2 mf u hstep hsrc hx hm1
          rw [hmfx]
          dsimp only
          exact hcore

/-- Legacy analogue: one legacy step re-run on its own output is a no-op. -/
theorem processFeatureLegacy_fixedPoint (x : String)
    (g : String → List GanttDependency) (m1 m2 mf : FMap)
    (u : Option FeatureUpdate)
    (hstep : processFeatureLegacy x m1 g = .ok (m2, u))
    (hsrc : ∀ d ∈ g x, mf d.sourceId = m1 d.sourceId)
    (hx : mf x = m2 x) :
    processFeatureLegacy x mf g = .ok (mf, none) := by
  unfold processFeatureLegacy at hstep ⊢
  cases hm1 : m1 x with
  | none =>
      rw [hm1] at hstep
      cases hstep
      rw [hx, hm1]
  | some f =>
      rw [hm1] at hstep
      dsimp only at hstep
      by_cases hinc : (g x).length = 0
      · rw [if_pos hinc] at hstep
        cases hstep
        rw [hx, hm1]
        dsimp only
        rw [if_pos hinc]
      · rw [if_neg hinc] at hstep
        simp only [Bind.bind, Except.bind] at hstep
        cases hfind : findConstraintStart f (g x) m1 with
        | error err => rw [hfind] at hstep; cases hstep
        | ok acc =>
            rw [hfind] at hstep
            dsimp only at hstep
            cases acc with
            | none =>
                cases hstep
                rw [hx, hm1]
                dsimp only
                rw [if_neg hinc]
                simp only [Bind.bind, Except.bind]
                rw [show findConstraintStart f (g x) mf
                    = findConstraintStart f (g x) m1 from by
                  unfold findConstraintStart
                  exact findConstraintStartGo_congr _ (g x) none m1 mf hsrc]
                rw [hfind]
            | some cs =>
                dsimp only at hstep
                cases hac : applyConstraint f cs x with
                | none =>
                    rw [hac] at hstep
                    cases hstep
                    rw [hx, hm1]
                    dsimp only
                    rw [if_neg hinc]
                    simp only [Bind.bind, Except.bind]
                    rw [show findConstraintStart f (g x) mf
                        = findConstraintStart f (g x) m1 from by
                      unfold findConstraintStart
                      exact findConstraintStartGo_congr _ (g x) none m1 mf hsrc]
                    rw [hfind]
                    dsimp only
                    rw [hac]
                | some pr =>
                    obtain ⟨f2, upd⟩ := pr
                    rw [hac] at hstep
                    dsimp only at hstep
                    cases hstep
                    obtain ⟨hacn, hdur⟩ := applyConstraint_after f cs x f2 upd hac
                    have hmfx : mf x = some f2 := by
                      rw [hx]
                      unfold mapSet
                      rw [if_pos rfl]
                    rw [hmfx]
                    dsimp only
                    rw [if_neg hinc]
                    simp only [Bind.bind, Except.bind]
                    rw [show findConstraintStart f2 (g x) mf
                        = findConstraintStart f (g x) m1 from by
                      unfold findConstraintStart
                      rw [hdur]
                      exact findConstraintStartGo_congr _ (g x) none m1 mf hsrc]
                    rw [hfind]
                    dsimp only
                    rw [hacn]

/-- The processing order places every dependency's source strictly before its
target: walking the order, no element's incoming dependency has its source at
or after that element. -/
def sourcesBefore (g : String → List GanttDependency) : List String → Bool
  | [] => true
  | x :: rest =>
      ((g x).all fun d => !(decide (d.sourceId ∈ x :: rest))) && sourcesBefore g rest

theorem sourcesBefore_cons (g : String → List GanttDependency) (x : String)
    (rest : List String) (h : sourcesBefore g (x :: rest) = true) :
    (∀ d ∈ g x, d.sourceId ∉ x :: rest) ∧ sourcesBefore g rest = true := by
  unfold sourcesBefore at h
  rw [Bool.and_eq_true] at h
  obtain ⟨h1, h2⟩ := h
  refine ⟨?_, h2⟩
  intro d hd
  have := List.all_eq_true.mp h1 d hd
  simpa using this

/-- Main loop fixed point: a successful pass whose processing order puts
every source before its target leaves its own final map unchanged and emits
no update when re-run from that map. -/
theorem recalcLoop_fixedPoint (uR : Bool) (fuel : Nat)
    (g : String → List GanttDependency) (er : List SchedulingRule) :
    ∀ (order : List String) (m1 : FMap) (us1 : List FeatureUpdate)
      (mf : FMap) (usF : List FeatureUpdate),
      order.Nodup →
      sourcesBefore g order = true →
      recalcLoop uR fuel g er order m1 us1 = .ok (mf, usF) →
      recalcLoop uR fuel g er order mf [] = .ok (mf, []) := by
  intro order
  induction order with
  | nil => intro m1 us1 mf usF _ _ _; rfl
  | cons x rest ih =>
      intro m1 us1 mf usF hnd hsb hrun
      obtain ⟨hndx, hndr⟩ := List.nodup_cons.mp hnd
      obtain ⟨hsb1, hsb2⟩ := sourcesBefore_cons g x rest hsb
      unfold recalcLoop at hrun
      dsimp only at hrun
      simp only [Bind.bind, Except.bind] at hrun
      cases uR with
      | true =>
          simp only [reduceIte] at hrun
          cases hstep0 : processFeatureWithRules fuel x m1 g er with
          | error err => rw [hstep0] at hrun; cases hrun
          | ok pr =>
              rw [hstep0] at hrun
              obtain ⟨m2, u⟩ := pr
              dsimp only at hrun
              obtain ⟨tail, htail, hids, hmaps⟩ :=
                recalcLoop_spec true fuel g er rest m2 _ mf usF hrun
              have hfinal : ∀ k, k ∉ rest → mf k = m2 k := by
                intro k hk
                rw [hmaps k, lastUpdateFor_none tail k
                  (fun v hv hvk => hk (hvk ▸ hids v hv))]
                cases m2 k <;> rfl
              have hloc : ∀ k, k ≠ x → m2 k = m1 k := by
                intro k hk
                rcases processFeatureWithRules_shape fuel x m1 g er m2 u hstep0 with
                  ⟨-, rfl⟩ | ⟨f0, u0, -, -, -, rfl⟩
                · rfl
                · unfold mapSet
                  rw [if_neg hk]
              have hsrcx : ∀ d ∈ g x, mf d.sourceId = m1 d.sourceId := by
                intro d hd
                have hno : d.sourceId ∉ x :: rest := hsb1 d hd
                rw [hfinal d.sourceId (fun hmem => hno (List.mem_cons_of_mem _ hmem))]
                exact hloc d.sourceId (fun he => hno (he ▸ List.mem_cons_self _ _))
              have hfix := processFeatureWithRules_fixedPoint fuel x g er m1 m2 mf u
                hstep0 hsrcx (hfinal x hndx)
              have hloop2 := ih m2 _ mf usF hndr hsb2 hrun
              unfold recalcLoop
              dsimp only
              simp only [Bind.bind, Except.bind, reduceIte]
              rw [hfix]
              dsimp only
              exact hloop2
      | false =>
          cases hstep0 : processFeatureLegacy x m1 g with
          | error err => rw [hstep0] at hrun; cases hrun
          | ok pr =>
              rw [hstep0] at hrun
              obtain ⟨m2, u⟩ := pr
              dsimp only at hrun
              obtain ⟨tail, htail, hids, hmaps⟩ :=
                recalcLoop_spec false fuel g er rest m2 _ mf usF hrun
              have hfinal : ∀ k, k ∉ rest → mf k = m2 k := by
                intro k hk
                rw [hmaps k, lastUpdateFor_none tail k
                  (fun v hv hvk => hk (hvk ▸ hids v hv))]
                cases m2 k <;> rfl
              have hloc : ∀ k, k ≠ x → m2 k = m1 k := by
                intro k hk
                rcases processFeatureLegacy_shape x m1 g m2 u hstep0 with
                  ⟨-, rfl⟩ | ⟨f0, u0, -, -, -, rfl⟩
                · rfl
                · unfold mapSet
                  rw [if_neg hk]
              have hsrcx : ∀ d ∈ g x, mf d.sourceId = m1 d.sourceId := by
                intro d hd
                have hno : d.sourceId ∉ x :: rest := hsb1 d hd
                rw [hfinal d.sourceId (fun hmem => hno (List.mem_cons_of_mem _ hmem))]
                exact hloc d.sourceId (fun he => hno (he ▸ List.mem_cons_self _ _))
              have hfix := processFeatureLegacy_fixedPoint x g m1 m2 mf u
                hstep0 hsrcx (hfinal x hndx)
              have hloop2 := ih m2 _ mf usF hndr hsb2 hrun
              unfold recalcLoop
              dsimp only
              simp only [Bind.bind, Except.bind, reduceIte]
              rw [hfix]
              dsimp only
              exact hloop2

theorem applyUpdates_ids (features : List GanttFeature)
    (us : List FeatureUpdate) :
    (applyUpdates features us).map (fun f => f.id) =
      features.map (fun f => f.id) := by
  rw [applyUpdates_eq_map, List.map_map]
  exact List.map_congr_left (fun f _ => applyLast_id f _)

theorem applyUpdates_rootIds (features : List GanttFeature)
    (us : List FeatureUpdate) (ban : List String) :
    ((applyUpdates features us).filter (fun f => f.id ∉ ban)).map (fun f => f.id)
      = (features.filter (fun f => f.id ∉ ban)).map (fun f => f.id) := by
  rw [applyUpdates_eq_map]
  induction features with
  | nil => rfl
  | cons f rest ih =>
      simp only [List.map_cons, List.filter_cons]
      rw [applyLast_id f (lastUpdateFor us f.id)]
      split_ifs with hq
      · simp only [List.map_cons]
        rw [applyLast_id f (lastUpdateFor us f.id), ih]
      · exact ih

/-- Applying an update list does not change feature ids, so the processing
order of the second run equals that of the first. -/
theorem topologicalSort_applyUpdates (features : List GanttFeature)
    (us : List FeatureUpdate) (deps : List GanttDependency) :
    topologicalSort (applyUpdates features us) deps =
      topologicalSort features deps := by
  unfold topologicalSort
  dsimp only
  rw [applyUpdates_rootIds features us (deps.map (fun d => d.targetId))]
  rw [applyUpdates_ids features us]

theorem recalculateSchedule_as_loop (fuel : Nat) (features : List GanttFeature)
    (deps : List GanttDependency) (rules : List SchedulingRule) :
    recalculateSchedule fuel features deps rules =
      (recalcLoop (decide ((rules.filter (fun r => r.enabled)).length ≠ 0)) fuel
        (buildReverseDependencyGraph deps) (rules.filter (fun r => r.enabled))
        (topologicalSort features deps) (buildFeaturesMap features) []) >>=
        fun pr => .ok pr.2 := by
  unfold recalculateSchedule
  rfl

/-- Claim C4, amended: `recalculate_schedule` is idempotent on inputs whose
computed processing order places every dependency's source before its target.
Applying the updates of a successful first call and calling again with the
same dependencies, rules and fuel returns an empty update list. -/
theorem claim_C4_amended (fuel : Nat) (features : List GanttFeature)
    (deps : List GanttDependency) (rules : List SchedulingRule)
    (us : List FeatureUpdate)
    (horder : sourcesBefore (buildReverseDependencyGraph deps)
      (topologicalSort features deps) = true)
    (hok : recalculateSchedule fuel features deps rules = .ok us) :
    recalculateSchedule fuel (applyUpdates features us) deps rules = .ok [] := by
  rw [recalculateSchedule_as_loop] at hok
  rw [recalculateSchedule_as_loop]
  rw [topologicalSort_applyUpdates features us deps]
  simp only [Bind.bind, Except.bind] at hok ⊢
  cases hl : recalcLoop (decide ((rules.filter (fun r => r.enabled)).length ≠ 0))
      fuel (buildReverseDependencyGraph deps) (rules.filter (fun r => r.enabled))
      (topologicalSort features deps) (buildFeaturesMap features) [] with
  | error err => rw [hl] at hok; cases hok
  | ok pr =>
      rw [hl] at hok
      obtain ⟨mf, usAll⟩ := pr
      dsimp only at hok
      rw [Except.ok.injEq] at hok
      subst hok
      obtain ⟨tail, htail, hids, hmaps⟩ := recalcLoop_spec _ fuel
        (buildReverseDependencyGraph deps) (rules.filter (fun r => r.enabled))
        (topologicalSort features deps) (buildFeaturesMap features) [] mf usAll hl
      rw [List.nil_append] at htail
      subst htail
      have hfun : buildFeaturesMap (applyUpdates features usAll) = mf := by
        funext k
        rw [applyUpdates_eq_map]
        rw [buildFeaturesMap_map features _ (fun f => applyLast_id f _) k]
        rw [hmaps k]
        cases hm0 : buildFeaturesMap features k with
        | none => rfl
        | some f =>
            simp only [Option.map_some']
            rw [buildFeaturesMap_id features k f hm0]
      rw [hfun]
      have hfix := recalcLoop_fixedPoint
        (decide ((rules.filter (fun r => r.enabled)).length ≠ 0)) fuel
        (buildReverseDependencyGraph deps) (rules.filter (fun r => r.enabled))
        (topologicalSort features deps) (buildFeaturesMap features) [] mf usAll
        (topologicalSort_nodup features deps) horder hl
      rw [hfix]

theorem claim_C4_amended_witness :
    sourcesBefore (buildReverseDependencyGraph [mkDep "dAB" "A" "B" "FS"])
      (topologicalSort [mkFeature "A" 1 5, mkFeature "B" 10 12]
        [mkDep "dAB" "A" "B" "FS"]) = true ∧
    recalculateSchedule 0 [mkFeature "A" 1 5, mkFeature "B" 10 12]
      [mkDep "dAB" "A" "B" "FS"] [] =
      .ok [{ id := "B", startAt := 5, endAt := 7 }] ∧
    recalculateSchedule 0
      (applyUpdates [mkFeature "A" 1 5, mkFeature "B" 10 12]
        [{ id := "B", startAt := 5, endAt := 7 }])
      [mkDep "dAB" "A" "B" "FS"] [] = .ok [] :=
  ⟨by decide, by decide,
   claim_C4_amended 0 [mkFeature "A" 1 5, mkFeature "B" 10 12]
     [mkDep "dAB" "A" "B" "FS"] [] [{ id := "B", startAt := 5, endAt := 7 }]
     (by decide) (by decide)⟩

/-- Router witness fixtures: two positioned bars and the position map. -/
def c9sp : FeaturePosition :=
  { id := "A", left := 0, width := 100, top := 0, height := 20 }

def c9tp : FeaturePosition :=
  { id := "B", left := 150, width := 80, top := 40, height := 20 }

def c9positions : String → Option FeaturePosition :=
  fun k => if k = "A" then some c9sp else if k = "B" then some c9tp else none

theorem claim_C9_witness :
    c9positions "A" = some c9sp ∧ c9positions "B" = some c9tp ∧
    (∃ ep, calculateDependencyEndpoints (mkDep "d9" "A" "B" "FS") c9positions =
        some ep ∧
      ep.source.y = c9sp.top + c9sp.height / 2 ∧
      ep.target.y = c9tp.top + c9tp.height / 2 ∧
      ep.source.x = (if (mkDep "d9" "A" "B" "FS").type = "FS" ∨
          (mkDep "d9" "A" "B" "FS").type = "FF"
        then c9sp.left + c9sp.width else c9sp.left) ∧
      ep.target.x = (if (mkDep "d9" "A" "B" "FS").type = "FS" ∨
          (mkDep "d9" "A" "B" "FS").type = "SS"
        then c9tp.left else c9tp.left + c9tp.width) ∧
      ∃ mid, calculateDependencyPath ep.source ep.target ep.targetFromRight [] =
          ep.source :: mid ++ [ep.target] ∧
        (∃ r, renderPath (ep.source :: mid ++ [ep.target]) =
          ("M " ++ renderPoint ep.source) ++ r) ∧
        (∃ pre, renderPath (ep.source :: mid ++ [ep.target]) =
          pre ++ (" L " ++ renderPoint ep.target))) :=
  ⟨rfl, rfl,
   claim_C9 (mkDep "d9" "A" "B" "FS") c9positions c9sp c9tp [] rfl rfl
     (Or.inl rfl)⟩

end Gantt
